import Mathlib

/-!
# Mersenne Twister engines of `go-prng`

A shallow embedding of the two Mersenne Twister engines of the repository
(`mersenne_twister_64.go`, package `twister64`, and `mersenne_twister_32.go`,
package `twister32`) together with theorems about them.

Conventions of the embedding:

* a Go `uint64` / `uint32` word is a `Nat`; every arithmetic operation that can
  leave the word range is followed by an explicit reduction modulo `2^64` /
  `2^32` (`u64`, `u32`);
* a Go array `[K]T` is a `List` of length `K`; a read `a[i]` whose index is in
  range by construction is `a.getD i 0`, a write `a[i] = v` is `a.set i v`;
  a read whose index can leave the range is bounds-checked and the failure
  (a Go run-time panic) is `none`;
* a Go `int` is an `Int`;
* a method with a pointer receiver takes the generator and returns the new
  generator (and the returned value, when there is one);
* a counted `for` loop is `forLoop lo hi body`;
* a Go `float64` is the rational number it holds; every `float64` operation
  (the conversion of an integer or of a constant, a product, a sum) is the
  exact operation on rationals followed by the rounding `f64` to the nearest
  `float64`.
-/

/-- The loop `for i := lo; i < hi; i++ { s = body i s }`. -/
def forLoop {σ : Type} (lo hi : Nat) (body : Nat → σ → σ) (s : σ) : σ :=
  (List.range' lo (hi - lo)).foldl (fun acc i => body i acc) s

/-- Conversion of a word to `uint64`. -/
def u64 (x : Nat) : Nat := x % 2 ^ 64

/-- Conversion of a word to `uint32`. -/
def u32 (x : Nat) : Nat := x % 2 ^ 32

/-- Conversion `uint64(seed)` of a Go `int64`. -/
def u64OfInt (x : Int) : Nat := (x % 2 ^ 64).toNat

/-- Conversion `uint32(seed)` of a Go `int64` (or `int`). -/
def u32OfInt (x : Int) : Nat := (x % 2 ^ 32).toNat

/-- Rounding of a rational to the nearest integer, a tie going to the even
integer. -/
def roundEven (x : ℚ) : Int :=
  if x - ⌊x⌋ < 1 / 2 then ⌊x⌋
  else if 1 / 2 < x - ⌊x⌋ then ⌊x⌋ + 1
  else if ⌊x⌋ % 2 = 0 then ⌊x⌋ else ⌊x⌋ + 1

/-- The `float64` nearest to the rational `x`, a tie going to the even
significand (IEEE 754 binary64, round to nearest even): with `2^e <= |x| < 2^(e+1)`
the `float64` values around `x` are the multiples of `2^(e-52)`, and of
`2^(-1074)` below the normal range (`e < -1022`). Overflow to infinity is not
represented; the values rounded in this development are below `2^53`. -/
def f64 (x : ℚ) : ℚ :=
  if x = 0 then 0
  else (roundEven (x / 2 ^ (max (Int.log 2 |x|) (-1022) - 52)) : ℚ)
    * 2 ^ (max (Int.log 2 |x|) (-1022) - 52)

namespace Twister64

def NN : Nat := 312
def MM : Nat := 156
def MatrixA : Nat := 0xB5026F5AA96619E9
/-- Most significant 33 bits. -/
def UM : Nat := 0xFFFFFFFF80000000
/-- Least significant 31 bits. -/
def LM : Nat := 0x7FFFFFFF

/-- State of the 64-bit engine: `mt [NN]uint64` and `mti uint64`. -/
structure MT19937 where
  mt : List Nat
  mti : Nat
deriving DecidableEq

/-- The unseeded generator returned by `New()`. -/
def New : MT19937 := { mt := List.replicate NN 0, mti := NN + 1 }

/-- Body of the loop of `Seed`:
`m.mt[mti] = 6364136223846793005*(m.mt[mti-1]^(m.mt[mti-1]>>62)) + mti`. -/
def seedStep (mti : Nat) (mt : List Nat) : List Nat :=
  mt.set mti
    (u64 (6364136223846793005 * (mt.getD (mti - 1) 0 ^^^ (mt.getD (mti - 1) 0 >>> 62)) + mti))

/-- Method `Seed(seed int64)`. The loop counter is the field `mti`, which the
loop leaves at `NN`. -/
def Seed (m : MT19937) (seed : Int) : MT19937 :=
  { mt := forLoop 1 NN seedStep (m.mt.set 0 (u64OfInt seed)), mti := NN }

/-- Constructor `NewMersenne(seed)`. -/
def NewMersenne (seed : Int) : MT19937 := Seed New seed

/-- The table `mag01 := [2]uint64{0, MatrixA}`. -/
def mag01 : List Nat := [0, MatrixA]

/-- Body of the first regeneration loop of `Int64` (`0 <= i < NN-MM`). -/
def genStep1 (i : Nat) (mt : List Nat) : List Nat :=
  let x := (mt.getD i 0 &&& UM) ||| (mt.getD (i + 1) 0 &&& LM)
  mt.set i (mt.getD (i + MM) 0 ^^^ (x >>> 1) ^^^ mag01.getD (x &&& 1) 0)

/-- Body of the second regeneration loop of `Int64` (`NN-MM <= i < NN-1`);
the index `i+(MM-NN)` is `i - (NN-MM)`. -/
def genStep2 (i : Nat) (mt : List Nat) : List Nat :=
  let x := (mt.getD i 0 &&& UM) ||| (mt.getD (i + 1) 0 &&& LM)
  mt.set i (mt.getD (i - (NN - MM)) 0 ^^^ (x >>> 1) ^^^ mag01.getD (x &&& 1) 0)

/-- The last regeneration statement of `Int64`, on index `NN-1`. -/
def genLast (mt : List Nat) : List Nat :=
  let x := (mt.getD (NN - 1) 0 &&& UM) ||| (mt.getD 0 0 &&& LM)
  mt.set (NN - 1) (mt.getD (MM - 1) 0 ^^^ (x >>> 1) ^^^ mag01.getD (x &&& 1) 0)

/-- The regeneration sweep of `Int64` over the whole buffer. -/
def generate (mt : List Nat) : List Nat :=
  genLast (forLoop (NN - MM) (NN - 1) genStep2 (forLoop 0 (NN - MM) genStep1 mt))

/-- The tempering of `Int64`. -/
def temper64 (x0 : Nat) : Nat :=
  let x1 := x0 ^^^ ((x0 >>> 29) &&& 0x5555555555555555)
  let x2 := x1 ^^^ (u64 (x1 <<< 17) &&& 0x71D67FFFEDA60000)
  let x3 := x2 ^^^ (u64 (x2 <<< 37) &&& 0xFFF7EEE000000000)
  x3 ^^^ (x3 >>> 43)

/-- The part of `Int64` under `if m.mti >= NN`. -/
def refill (m : MT19937) : MT19937 :=
  if NN ≤ m.mti then
    let m0 := if m.mti = NN + 1 then Seed m 5489 else m
    { mt := generate m0.mt, mti := 0 }
  else m

/-- Method `Int64()`: the returned word and the generator afterwards. -/
def Int64 (m : MT19937) : Nat × MT19937 :=
  let m1 := refill m
  (temper64 (m1.mt.getD m1.mti 0), { m1 with mti := m1.mti + 1 })

/-- Method `IntN(n uint64)`: `m.Int64() % n`; the remainder panics (`none`) when
`n` is zero. -/
def IntN (m : MT19937) (n : Nat) : Option (Nat × MT19937) :=
  let r := Int64 m
  if n = 0 then none else some (r.1 % n, r.2)

/-- The generator after `n` consecutive calls of `Int64`. -/
def run : Nat → MT19937 → MT19937
  | 0, m => m
  | n + 1, m => run n (Int64 m).2

/-- The word returned by call number `n + 1` of `Int64` on `m`. -/
def nthInt64 (m : MT19937) (n : Nat) : Nat := (Int64 (run n m)).1

/-- The word that the loop of `Seed` writes at index `j`, as a recurrence on the
words: `s0` at index `0`, then the loop body applied to the previous word. -/
def seedWord (s0 : Nat) : Nat → Nat
  | 0 => s0
  | j + 1 => u64 (6364136223846793005 * (seedWord s0 j ^^^ (seedWord s0 j >>> 62)) + (j + 1))

/-- Specification side: one step of the MT19937-64 recurrence,
`x_{k+156} XOR (y >> 1) XOR (MatrixA if y is odd else 0)` with
`y = (x_k AND 0xFFFFFFFF80000000) OR (x_{k+1} AND 0x7FFFFFFF)`; the arguments
are `x_k`, `x_{k+1}`, `x_{k+156}`. -/
def refNext (a b c : Nat) : Nat :=
  let y := (a &&& 0xFFFFFFFF80000000) ||| (b &&& 0x7FFFFFFF)
  c ^^^ (y >>> 1) ^^^ (if y % 2 = 1 then 0xB5026F5AA96619E9 else 0)

/-- Specification side: the reference stream of MT19937-64 for a seed: `x_0 ..
x_311` are the words of the buffer written by `Seed`, and
`x_{k+312} = refNext x_k x_{k+1} x_{k+156}`. -/
def refStream (seed : Int) (k : Nat) : Nat :=
  if k < 312 then (NewMersenne seed).mt.getD k 0
  else refNext (refStream seed (k - 312)) (refStream seed (k - 312 + 1))
    (refStream seed (k - 312 + 156))
termination_by k
decreasing_by all_goals omega

/-- The generator holds a window of the reference stream and will return the
word `x_{312+n}` next: for some `r` the buffer is `x_{312 r} .. x_{312 r + 311}`
and the read index `mti` satisfies `312 r + mti = 312 + n`. -/
def StreamAt (seed : Int) (n : Nat) (m : MT19937) : Prop :=
  ∃ r, m.mt.length = NN ∧ m.mti ≤ NN ∧
    (∀ i, i < NN → m.mt.getD i 0 = refStream seed (NN * r + i)) ∧ NN * r + m.mti = NN + n

/-- Conversion `int64(x)` of a `uint64`. -/
def i64OfU64 (x : Nat) : Int :=
  if x % 2 ^ 64 < 2 ^ 63 then ((x % 2 ^ 64 : Nat) : Int) else ((x % 2 ^ 64 : Nat) : Int) - 2 ^ 64

/-- Method `Int63()`: `int64(m.Int64() << 1 >> 1)`, both shifts on `uint64`. -/
def Int63 (m : MT19937) : Int × MT19937 :=
  let r := Int64 m
  (i64OfU64 (u64 (r.1 <<< 1) >>> 1), r.2)

/-- The return expression of `Real1`, `float64(x>>11) * (1.0 / 9007199254740991.0)`:
the conversion of the shifted word, the constant as a `float64`, and their
`float64` product. -/
def real1Val (x : Nat) : ℚ :=
  f64 (f64 ((x >>> 11 : Nat) : ℚ) * f64 (1 / 9007199254740991))

/-- The return expression of `Real2`, `float64(x>>11) * (1.0 / 9007199254740992.0)`. -/
def real2Val (x : Nat) : ℚ :=
  f64 (f64 ((x >>> 11 : Nat) : ℚ) * f64 (1 / 9007199254740992))

/-- The return expression of `Real3`,
`(float64(x>>12) + 0.5) * (1.0 / 4503599627370496.0)`. -/
def real3Val (x : Nat) : ℚ :=
  f64 (f64 (f64 ((x >>> 12 : Nat) : ℚ) + f64 (1 / 2)) * f64 (1 / 4503599627370496))

/-- Method `Real1()`. -/
def Real1 (m : MT19937) : ℚ × MT19937 :=
  let r := Int64 m
  (real1Val r.1, r.2)

/-- Method `Real2()`. -/
def Real2 (m : MT19937) : ℚ × MT19937 :=
  let r := Int64 m
  (real2Val r.1, r.2)

/-- Method `Real3()`. -/
def Real3 (m : MT19937) : ℚ × MT19937 :=
  let r := Int64 m
  (real3Val r.1, r.2)

/-- Loop state of `SeedArray`: the buffer and the counters `i`, `j` (`uint64`). -/
structure KeyLoop where
  mt : List Nat
  i : Nat
  j : Nat

/-- Body of the first loop of `SeedArray`. -/
def keyStep1 (initKey : List Nat) (s : KeyLoop) : KeyLoop :=
  let mt := s.mt.set s.i
    (u64 ((s.mt.getD s.i 0 ^^^
        u64 ((s.mt.getD (s.i - 1) 0 ^^^ (s.mt.getD (s.i - 1) 0 >>> 62)) * 3935559000370003845))
      + initKey.getD s.j 0 + s.j))
  let i := u64 (s.i + 1)
  let j := u64 (s.j + 1)
  let (mt, i) := if NN ≤ i then (mt.set 0 (mt.getD (NN - 1) 0), 1) else (mt, i)
  let j := if u64 initKey.length ≤ j then 0 else j
  { mt := mt, i := i, j := j }

/-- Body of the second loop of `SeedArray`; the subtraction `- i` is on
`uint64`. -/
def keyStep2 (s : KeyLoop) : KeyLoop :=
  let mt := s.mt.set s.i
    (u64 ((s.mt.getD s.i 0 ^^^
        u64 ((s.mt.getD (s.i - 1) 0 ^^^ (s.mt.getD (s.i - 1) 0 >>> 62)) * 2862933555777941757))
      + (2 ^ 64 - s.i)))
  let i := u64 (s.i + 1)
  let (mt, i) := if NN ≤ i then (mt.set 0 (mt.getD (NN - 1) 0), 1) else (mt, i)
  { mt := mt, i := i, j := s.j }

/-- Method `SeedArray(initKey [NN]uint64)`. The first loop runs `k` times with
`k = len(initKey)` when `NN <= len(initKey)` and `k = NN` otherwise, the second
`NN - 1` times; `mti` stays as `Seed` left it. -/
def SeedArray (m : MT19937) (initKey : List Nat) : MT19937 :=
  let m1 := Seed m 19650218
  let k := if NN ≤ initKey.length then initKey.length else NN
  let s1 := (keyStep1 initKey)^[k] { mt := m1.mt, i := 1, j := 0 }
  let s2 := keyStep2^[NN - 1] s1
  { m1 with mt := s2.mt.set 0 (u64 (1 <<< 63)) }

/-- Specification side: a step of the forward pass of array seeding,
`buffer[i] = ((buffer[i] XOR ((buffer[i-1] XOR (buffer[i-1] >> 62)) *
3935559000370003845)) + key[j] + j) mod 2^64`, after which `i` and `j` are
incremented, `i` reaching 312 copies `buffer[311]` into `buffer[0]` and resets
`i` to 1, and `j` reaching `len(key)` resets `j` to 0. -/
def specForward (key : List Nat) (s : KeyLoop) : KeyLoop :=
  let b := s.mt.set s.i
    (((s.mt.getD s.i 0 ^^^
        ((s.mt.getD (s.i - 1) 0 ^^^ (s.mt.getD (s.i - 1) 0 >>> 62)) * 3935559000370003845))
      + key.getD s.j 0 + s.j) % 2 ^ 64)
  let b1 := if s.i + 1 = 312 then b.set 0 (b.getD 311 0) else b
  { mt := b1
    i := if s.i + 1 = 312 then 1 else s.i + 1
    j := if s.j + 1 = key.length then 0 else s.j + 1 }

/-- Specification side: a step of the reverse pass of array seeding,
`buffer[i] = ((buffer[i] XOR ((buffer[i-1] XOR (buffer[i-1] >> 62)) *
2862933555777941757)) - i) mod 2^64`, with the same wrap rule for `i`. -/
def specReverse (s : KeyLoop) : KeyLoop :=
  let b := s.mt.set s.i
    ((((s.mt.getD s.i 0 ^^^
        ((s.mt.getD (s.i - 1) 0 ^^^ (s.mt.getD (s.i - 1) 0 >>> 62)) * 2862933555777941757)
          : Nat) : Int) - (s.i : Int)) % 2 ^ 64).toNat
  let b1 := if s.i + 1 = 312 then b.set 0 (b.getD 311 0) else b
  { mt := b1
    i := if s.i + 1 = 312 then 1 else s.i + 1
    j := s.j }

/-- Specification side: array seeding by its definition: `Seed(19650218)`, the
forward pass of `max(312, len(key))` steps from `i = 1`, `j = 0`, the reverse
pass of 311 steps, `buffer[0] := 2^63`, and `mti` left at 312. -/
def specSeedArray (m : MT19937) (key : List Nat) : MT19937 :=
  let b0 := (Seed m 19650218).mt
  let s1 := (specForward key)^[max 312 key.length] { mt := b0, i := 1, j := 0 }
  let s2 := specReverse^[311] s1
  { mt := s2.mt.set 0 (2 ^ 63), mti := 312 }

/-- The loop counters of array seeding are in range: `1 <= i < NN`,
`j < len(key)`, and the buffer has `NN` words. -/
def KeyInv (key : List Nat) (s : KeyLoop) : Prop :=
  s.mt.length = NN ∧ 1 ≤ s.i ∧ s.i < NN ∧ s.j < key.length

end Twister64

namespace Twister32

def N : Nat := 624
def M : Nat := 397
def MatrixA32 : Nat := 0x9908b0df
/-- Most significant w-r bits. -/
def UMask : Nat := 0x80000000
/-- Least significant r bits. -/
def LMask : Nat := 0x7fffffff

def mixbits (u v : Nat) : Nat := (u &&& UMask) ||| (v &&& LMask)

def twist (u v : Nat) : Nat :=
  let m := mixbits u v >>> 1
  if v &&& 1 ≠ 0 then m ^^^ MatrixA32 else m ^^^ 0

/-- Wrap-around of a Go `int` (64 bits wide) after an arithmetic operation. -/
def wrapInt (x : Int) : Int := (x + 2 ^ 63) % 2 ^ 64 - 2 ^ 63

/-- State of the 32-bit engine: `state [N]uint32`, `left, initf int`,
`next [N]uint32`, `nptr int`. -/
structure MT19937 where
  state : List Nat
  left : Int
  initf : Int
  next : List Nat
  nptr : Int
deriving DecidableEq

/-- The unseeded generator returned by `New32()`: every field but `left` has its
zero value. -/
def New32 : MT19937 :=
  { state := List.replicate N 0, left := 1, initf := 0, next := List.replicate N 0, nptr := 0 }

/-- Body of the loop of `Seed`: the assignment to `m.state[j]` and the masking
`m.state[j] &= 0xffffffff`. -/
def seedStep (j : Nat) (state : List Nat) : List Nat :=
  let st := state.set j
    (u32 (1812433253 * (state.getD (j - 1) 0 ^^^ (state.getD (j - 1) 0 >>> 30)) + u32 j))
  st.set j (st.getD j 0 &&& 0xffffffff)

/-- Method `Seed(seed int64)`. -/
def Seed (m : MT19937) (seed : Int) : MT19937 :=
  { m with
    state := forLoop 1 N seedStep (m.state.set 0 (u32OfInt seed &&& 0xffffffff))
    left := 1
    initf := 1 }

/-- Constructor `NewMersenne32(seed)`. -/
def NewMersenne32 (seed : Int) : MT19937 := Seed New32 seed

/-- Loop state of `SeedArray`: the buffer and the counters `i`, `j` (`uint32`). -/
structure KeyLoop where
  state : List Nat
  i : Nat
  j : Nat
deriving DecidableEq

/-- Body of the first loop of `SeedArray`. -/
def keyStep1 (initKey : List Nat) (s : KeyLoop) : KeyLoop :=
  let st := s.state.set s.i
    (u32 ((s.state.getD s.i 0 ^^^
        u32 ((s.state.getD (s.i - 1) 0 ^^^ (s.state.getD (s.i - 1) 0 >>> 30)) * 1664525))
      + initKey.getD s.j 0 + s.j))
  let st := st.set s.i (st.getD s.i 0 &&& 0xffffffff)
  let i := u32 (s.i + 1)
  let j := u32 (s.j + 1)
  let (st, i) := if N ≤ i then (st.set 0 (st.getD (N - 1) 0), 1) else (st, i)
  let j := if u32 initKey.length ≤ j then 0 else j
  { state := st, i := i, j := j }

/-- Body of the second loop of `SeedArray`; the subtraction `- i` is on
`uint32`. -/
def keyStep2 (s : KeyLoop) : KeyLoop :=
  let st := s.state.set s.i
    (u32 ((s.state.getD s.i 0 ^^^
        u32 ((s.state.getD (s.i - 1) 0 ^^^ (s.state.getD (s.i - 1) 0 >>> 30)) * 1566083941))
      + (2 ^ 32 - s.i)))
  let st := st.set s.i (st.getD s.i 0 &&& 0xffffffff)
  let i := u32 (s.i + 1)
  let (st, i) := if N ≤ i then (st.set 0 (st.getD (N - 1) 0), 1) else (st, i)
  { state := st, i := i, j := s.j }

/-- Method `SeedArray(initKey [N]uint32)`. The first loop runs `k` times with
`k = len(initKey)` when `N <= len(initKey)` and `k = N` otherwise, the second
`N - 1` times. -/
def SeedArray (m : MT19937) (initKey : List Nat) : MT19937 :=
  let m1 := Seed m 19650218
  let k := if N ≤ initKey.length then initKey.length else N
  let s1 := (keyStep1 initKey)^[k] { state := m1.state, i := 1, j := 0 }
  let s2 := keyStep2^[N - 1] s1
  { m1 with state := s2.state.set 0 0x80000000, left := 1, initf := 1 }

/-- Body of the first loop of `NextState`, on the local array `p`. -/
def nextStep1 (i : Nat) (p : List Nat) : List Nat :=
  p.set i (p.getD M 0 ^^^ twist (p.getD 0 0) (p.getD 1 0))

/-- Body of the second loop of `NextState`, on the local array `p`; the index
`i-(M-N)` is `i + (N - M)`. -/
def nextStep2 (i : Nat) (p : List Nat) : List Nat :=
  p.set i (p.getD (i + (N - M)) 0 ^^^ twist (p.getD 0 0) (p.getD 1 0))

/-- Method `NextState()`, with the final value of its local array. `p := m.state`
copies the array (a Go array is a value), so the three groups of assignments to
`p[i]` write the local copy: the first loop runs for `i = 0 .. N-M-1`, the second
for `i = 0 .. M-2` and leaves `i = M-1` for the last assignment. -/
def NextStateAux (m : MT19937) : MT19937 × List Nat :=
  let p := m.state
  let m1 := if m.initf = 0 then Seed m 5489 else m
  let m2 := { m1 with left := (N : Int), next := m1.state }
  let p := forLoop 0 (N - M) nextStep1 p
  let p := forLoop 0 (M - 1) nextStep2 p
  let p := p.set (M - 1) (p.getD (M - 1 + (N - M)) 0 ^^^ twist (p.getD 0 0) (m2.state.getD 0 0))
  (m2, p)

/-- Method `NextState()`: the generator afterwards. -/
def NextState (m : MT19937) : MT19937 := (NextStateAux m).1

/-- The tempering of `Int32` (and of `Int31`, `Real1`, `Real2`, `Real3`). -/
def temper32 (y0 : Nat) : Nat :=
  let y1 := y0 ^^^ (y0 >>> 11)
  let y2 := y1 ^^^ (u32 (y1 <<< 7) &&& 0x9d2c5680)
  let y3 := y2 ^^^ (u32 (y2 <<< 15) &&& 0xefc60000)
  y3 ^^^ (y3 >>> 18)

/-- Method `Int32()`: `m.left--`, the call of `NextState` when `m.left == 0`,
`m.nptr++`, the read `m.next[m.nptr]`, which panics (`none`) when `m.nptr` is not
an index of the array, and the tempering. Returns the word and the generator
afterwards. -/
def Int32 (m : MT19937) : Option (Nat × MT19937) :=
  let m1 := { m with left := wrapInt (m.left - 1) }
  let m2 := if m1.left = 0 then NextState m1 else m1
  let m3 := { m2 with nptr := wrapInt (m2.nptr + 1) }
  if 0 ≤ m3.nptr ∧ m3.nptr < (N : Int) then
    some (temper32 (m3.next.getD m3.nptr.toNat 0), m3)
  else none

/-- Method `IntN(n int)`: `int(m.Int32() % uint32(n))`; the remainder panics
(`none`) when the divisor `uint32(n)` is zero. -/
def IntN (m : MT19937) (n : Int) : Option (Int × MT19937) :=
  match Int32 m with
  | none => none
  | some (w, m1) => if u32OfInt n = 0 then none else some (((w % u32OfInt n : Nat) : Int), m1)

/-- The key of the array-seed scenario: `0x123, 0x234, 0x345, 0x456` followed by
zeros, `N` words in all. -/
def scenarioKey : List Nat := [0x123, 0x234, 0x345, 0x456] ++ List.replicate (N - 4) 0

/-- The generator after `n` consecutive calls of `Int32`, `none` when one of
them panics. -/
def run : Nat → MT19937 → Option MT19937
  | 0, m => some m
  | n + 1, m =>
    match Int32 m with
    | none => none
    | some r => run n r.2

/-- The word returned by call number `n + 1` of `Int32` on `m`, `none` when that
call or an earlier one panics. -/
def nthInt32 (m : MT19937) (n : Nat) : Option Nat :=
  match run n m with
  | none => none
  | some m1 => (Int32 m1).map Prod.fst

/-- The word that the loop of `Seed` writes at index `j`, as a recurrence on the
words: `s0` at index `0`, then the loop body (assignment and masking) applied to
the previous word. -/
def seedWord (s0 : Nat) : Nat → Nat
  | 0 => s0
  | j + 1 =>
    u32 (1812433253 * (seedWord s0 j ^^^ (seedWord s0 j >>> 30)) + u32 (j + 1)) &&& 0xffffffff

/-- The generator that `k` completed calls of `Int32` on `NewMersenne32(seed)`
lead to: both arrays hold the seeded buffer, `left = N + 1 - k`, `nptr = k`. -/
def stateAfter (seed : Int) (k : Nat) : MT19937 :=
  if k = 0 then NewMersenne32 seed
  else
    { state := (NewMersenne32 seed).state
      left := (N : Int) + 1 - (k : Int)
      initf := 1
      next := (NewMersenne32 seed).state
      nptr := (k : Int) }

/-- The word that a step of the first loop of `SeedArray` writes: current word,
previous word, key word and `j`. -/
def keyMix1 (cur prev kj j : Nat) : Nat :=
  u32 ((cur ^^^ u32 ((prev ^^^ (prev >>> 30)) * 1664525)) + kj + j) &&& 0xffffffff

/-- The word that a step of the second loop of `SeedArray` writes: current word,
previous word and `i`. -/
def keyMix2 (cur prev i : Nat) : Nat :=
  u32 ((cur ^^^ u32 ((prev ^^^ (prev >>> 30)) * 1566083941)) + (2 ^ 32 - i)) &&& 0xffffffff

/-- The word at index `r` after the first `r` steps of the first loop of
`SeedArray` on a buffer with words `S` and an `N`-word key. -/
def fwdWord (key : List Nat) (S : Nat → Nat) : Nat → Nat
  | 0 => S 0
  | r + 1 => keyMix1 (S (r + 1)) (fwdWord key S r) (key.getD r 0) r

/-- The word at index `1` after the last step of the first loop of `SeedArray`
(the step after the wrap-around of `i`). -/
def fwdWrap (key : List Nat) (S : Nat → Nat) : Nat :=
  keyMix1 (fwdWord key S 1) (fwdWord key S (N - 1)) (key.getD (N - 1) 0) (N - 1)

/-- The word at index `r >= 1` during the second loop of `SeedArray`. -/
def bwdWord (key : List Nat) (S : Nat → Nat) : Nat → Nat
  | 0 => 0
  | r + 1 =>
    if r = 0 then fwdWrap key S
    else keyMix2 (fwdWord key S (r + 1)) (bwdWord key S r) (r + 1)

/-- The word at index `1` after `SeedArray`. -/
def arrayWord1 (key : List Nat) (S : Nat → Nat) : Nat :=
  keyMix2 (fwdWrap key S) (bwdWord key S (N - 1)) 1

/-- Conversion `int32(x)` of a `uint32`. -/
def i32OfU32 (x : Nat) : Int :=
  if x % 2 ^ 32 < 2 ^ 31 then ((x % 2 ^ 32 : Nat) : Int) else ((x % 2 ^ 32 : Nat) : Int) - 2 ^ 32

/-- Method `Int31()`: its own copy of the extraction and of the tempering, then
`int32(y >> 1)`. -/
def Int31 (m : MT19937) : Option (Int × MT19937) :=
  let m1 : MT19937 := { m with left := wrapInt (m.left - 1) }
  let m2 : MT19937 := if m1.left = 0 then NextState m1 else m1
  let m3 : MT19937 := { m2 with nptr := wrapInt (m2.nptr + 1) }
  if 0 ≤ m3.nptr ∧ m3.nptr < (N : Int) then
    let y := m3.next.getD m3.nptr.toNat 0
    let y := y ^^^ (y >>> 11)
    let y := y ^^^ (u32 (y <<< 7) &&& 0x9d2c5680)
    let y := y ^^^ (u32 (y <<< 15) &&& 0xefc60000)
    let y := y ^^^ (y >>> 18)
    some (i32OfU32 (y >>> 1), m3)
  else none

/-- Method `Real1()`: its own copy of the extraction and of the tempering, then
`float64(y) * (1.0 / 4294967295.0)`: the conversion of the word, the constant as
a `float64`, and their `float64` product. -/
def Real1 (m : MT19937) : Option (ℚ × MT19937) :=
  let m1 : MT19937 := { m with left := wrapInt (m.left - 1) }
  let m2 : MT19937 := if m1.left = 0 then NextState m1 else m1
  let m3 : MT19937 := { m2 with nptr := wrapInt (m2.nptr + 1) }
  if 0 ≤ m3.nptr ∧ m3.nptr < (N : Int) then
    let y := m3.next.getD m3.nptr.toNat 0
    let y := y ^^^ (y >>> 11)
    let y := y ^^^ (u32 (y <<< 7) &&& 0x9d2c5680)
    let y := y ^^^ (u32 (y <<< 15) &&& 0xefc60000)
    let y := y ^^^ (y >>> 18)
    some (f64 (f64 (y : ℚ) * f64 (1 / 4294967295)), m3)
  else none

/-- Method `Real2()`: its own copy of the extraction and of the tempering, then
`float64(y) * (1.0 / 4294967296.0)`. -/
def Real2 (m : MT19937) : Option (ℚ × MT19937) :=
  let m1 : MT19937 := { m with left := wrapInt (m.left - 1) }
  let m2 : MT19937 := if m1.left = 0 then NextState m1 else m1
  let m3 : MT19937 := { m2 with nptr := wrapInt (m2.nptr + 1) }
  if 0 ≤ m3.nptr ∧ m3.nptr < (N : Int) then
    let y := m3.next.getD m3.nptr.toNat 0
    let y := y ^^^ (y >>> 11)
    let y := y ^^^ (u32 (y <<< 7) &&& 0x9d2c5680)
    let y := y ^^^ (u32 (y <<< 15) &&& 0xefc60000)
    let y := y ^^^ (y >>> 18)
    some (f64 (f64 (y : ℚ) * f64 (1 / 4294967296)), m3)
  else none

/-- Method `Real3()`: its own copy of the extraction and of the tempering, then
`(float64(y) + 0.5) * (1.0 / 4294967296.0)`. -/
def Real3 (m : MT19937) : Option (ℚ × MT19937) :=
  let m1 : MT19937 := { m with left := wrapInt (m.left - 1) }
  let m2 : MT19937 := if m1.left = 0 then NextState m1 else m1
  let m3 : MT19937 := { m2 with nptr := wrapInt (m2.nptr + 1) }
  if 0 ≤ m3.nptr ∧ m3.nptr < (N : Int) then
    let y := m3.next.getD m3.nptr.toNat 0
    let y := y ^^^ (y >>> 11)
    let y := y ^^^ (u32 (y <<< 7) &&& 0x9d2c5680)
    let y := y ^^^ (u32 (y <<< 15) &&& 0xefc60000)
    let y := y ^^^ (y >>> 18)
    some (f64 (f64 (f64 (y : ℚ) + f64 (1 / 2)) * f64 (1 / 4294967296)), m3)
  else none

/-- The value `Real1` computes from the tempered word `y`. -/
def real1Val (y : Nat) : ℚ := f64 (f64 (y : ℚ) * f64 (1 / 4294967295))

/-- The value `Real2` computes from the tempered word `y`. -/
def real2Val (y : Nat) : ℚ := f64 (f64 (y : ℚ) * f64 (1 / 4294967296))

/-- The value `Real3` computes from the tempered word `y`. -/
def real3Val (y : Nat) : ℚ := f64 (f64 (f64 (y : ℚ) + f64 (1 / 2)) * f64 (1 / 4294967296))

end Twister32


/-! ## Loops and arrays -/

theorem forLoop_self {σ : Type} (lo : Nat) (body : Nat → σ → σ) (s : σ) :
    forLoop lo lo body s = s := by
  simp [forLoop]

theorem forLoop_succ {σ : Type} (lo hi : Nat) (h : lo ≤ hi) (body : Nat → σ → σ) (s : σ) :
    forLoop lo (hi + 1) body s = body hi (forLoop lo hi body s) := by
  unfold forLoop
  have e : hi + 1 - lo = (hi - lo) + 1 := by omega
  rw [e, List.range'_1_concat, List.foldl_append]
  have e2 : lo + (hi - lo) = hi := by omega
  simp [e2]

/-- Invariant rule for `forLoop`. -/
theorem forLoop_induction {σ : Type} (P : Nat → σ → Prop) (lo hi : Nat)
    (body : Nat → σ → σ) (s : σ) (hle : lo ≤ hi) (h0 : P lo s)
    (hstep : ∀ i t, lo ≤ i → i < hi → P i t → P (i + 1) (body i t)) :
    P hi (forLoop lo hi body s) := by
  induction hi, hle using Nat.le_induction with
  | base => rw [forLoop_self]; exact h0
  | succ n hn ih =>
    rw [forLoop_succ lo n hn]
    exact hstep n _ hn (Nat.lt_succ_self n)
      (ih (fun i t h1 h2 h3 => hstep i t h1 (Nat.lt_succ_of_lt h2) h3))

theorem getD_set_self (l : List Nat) (i v : Nat) (h : i < l.length) :
    (l.set i v).getD i 0 = v := by
  simp [List.getD_eq_getElem?_getD, h]

theorem getD_set_of_ne (l : List Nat) (i j v : Nat) (h : i ≠ j) :
    (l.set i v).getD j 0 = l.getD j 0 := by
  simp [List.getD_eq_getElem?_getD, List.getElem?_set_ne h]

theorem list_ext_getD (l₁ l₂ : List Nat) (hl : l₁.length = l₂.length)
    (h : ∀ i, i < l₁.length → l₁.getD i 0 = l₂.getD i 0) : l₁ = l₂ := by
  apply List.ext_getElem hl
  intro i h1 h2
  have := h i h1
  simpa [List.getD_eq_getElem?_getD, List.getElem?_eq_getElem h1,
    List.getElem?_eq_getElem h2] using this

theorem and_mask32 (x : Nat) : u32 x &&& 0xffffffff = u32 x := by
  have h := Nat.and_pow_two_sub_one_eq_mod (u32 x) 32
  have e : (2 : Nat) ^ 32 - 1 = 0xffffffff := by norm_num
  rw [e] at h
  rw [h]
  unfold u32
  exact Nat.mod_mod _ _

/-! ## The 64-bit engine -/

namespace Twister64

theorem seedStep_length (j : Nat) (l : List Nat) : (seedStep j l).length = l.length := by
  simp [seedStep]

/-- The loop of `Seed` writes the recurrence `seedWord` over the whole buffer. -/
theorem seedLoop_spec (l : List Nat) (s0 : Nat) (hl : l.length = NN) :
    (forLoop 1 NN seedStep (l.set 0 s0)).length = NN ∧
      ∀ j, j < NN → (forLoop 1 NN seedStep (l.set 0 s0)).getD j 0 = seedWord s0 j := by
  have key := forLoop_induction
    (fun j t => t.length = NN ∧ ∀ r, r < j → t.getD r 0 = seedWord s0 r)
    1 NN seedStep (l.set 0 s0) (by decide)
    (by
      refine ⟨by simpa using hl, ?_⟩
      intro r hr
      have hr0 : r = 0 := by omega
      subst hr0
      rw [getD_set_self _ _ _ (by rw [hl]; decide)]
      rfl)
    (by
      intro i t h1 h2 ⟨hlen, hval⟩
      refine ⟨by rw [seedStep_length]; exact hlen, ?_⟩
      intro r hr
      unfold seedStep
      by_cases hri : r = i
      · subst hri
        rw [getD_set_self _ _ _ (by rw [hlen]; exact h2)]
        obtain ⟨k, rfl⟩ : ∃ k, r = k + 1 := ⟨r - 1, by omega⟩
        rw [Nat.add_sub_cancel, hval k (by omega)]
        rfl
      · rw [getD_set_of_ne _ _ _ _ (Ne.symm hri)]
        exact hval r (by omega))
  exact key

theorem Seed_mt (m : MT19937) (seed : Int) :
    (Seed m seed).mt = forLoop 1 NN seedStep (m.mt.set 0 (u64OfInt seed)) := by
  simp only [Seed]

theorem Seed_mti (m : MT19937) (seed : Int) : (Seed m seed).mti = NN := by
  simp only [Seed]

theorem Seed_mt_length (m : MT19937) (seed : Int) (hl : m.mt.length = NN) :
    (Seed m seed).mt.length = NN := by
  rw [Seed_mt]
  exact (seedLoop_spec m.mt (u64OfInt seed) hl).1

theorem Seed_mt_getD (m : MT19937) (seed : Int) (hl : m.mt.length = NN) (j : Nat)
    (hj : j < NN) : (Seed m seed).mt.getD j 0 = seedWord (u64OfInt seed) j := by
  rw [Seed_mt]
  exact (seedLoop_spec m.mt (u64OfInt seed) hl).2 j hj

theorem New_mt_length : New.mt.length = NN := by
  simp [New]

/-- The state after `Seed` does not depend on the state before. -/
theorem Seed_eq_NewMersenne (m : MT19937) (seed : Int) (hl : m.mt.length = NN) :
    Seed m seed = NewMersenne seed := by
  have h1 : (Seed m seed).mt = (NewMersenne seed).mt := by
    apply list_ext_getD
    · rw [Seed_mt_length m seed hl, NewMersenne, Seed_mt_length New seed New_mt_length]
    · intro i hi
      rw [Seed_mt_length m seed hl] at hi
      rw [Seed_mt_getD m seed hl i hi, NewMersenne, Seed_mt_getD New seed New_mt_length i hi]
  have h2 : (Seed m seed).mti = (NewMersenne seed).mti := by
    rw [NewMersenne, Seed_mti, Seed_mti]
  cases hs : Seed m seed with
  | mk a b =>
    cases hn : NewMersenne seed with
    | mk c d =>
      rw [hs, hn] at h1 h2
      simp only at h1 h2
      rw [h1, h2]

theorem mag01_getD (y : Nat) :
    mag01.getD (y &&& 1) 0 = if y % 2 = 1 then 0xB5026F5AA96619E9 else 0 := by
  rw [Nat.and_one_is_mod]
  rcases Nat.mod_two_eq_zero_or_one y with h | h <;> simp [h, mag01, MatrixA]

/-- The word computed by a regeneration statement is one step of the reference
recurrence. -/
theorem genWord_eq (a b c : Nat) :
    c ^^^ (((a &&& UM) ||| (b &&& LM)) >>> 1) ^^^ mag01.getD (((a &&& UM) ||| (b &&& LM)) &&& 1) 0
      = refNext a b c := by
  simp only [refNext, mag01_getD, UM, LM]

/-- Writing the next word at index `i` moves the boundary between the recomputed
and the old part of the buffer. -/
theorem gen_write (X : Nat → Nat) (i : Nat) (t : List Nat) (hi : i < NN)
    (h : t.length = NN ∧ (∀ r, r < i → t.getD r 0 = X (r + NN)) ∧
      (∀ r, i ≤ r → r < NN → t.getD r 0 = X r)) :
    (t.set i (X (i + NN))).length = NN ∧
      (∀ r, r < i + 1 → (t.set i (X (i + NN))).getD r 0 = X (r + NN)) ∧
      (∀ r, i + 1 ≤ r → r < NN → (t.set i (X (i + NN))).getD r 0 = X r) := by
  obtain ⟨hlen, hnew, hold⟩ := h
  refine ⟨by simpa using hlen, ?_, ?_⟩
  · intro r hr
    by_cases hri : r = i
    · subst hri
      exact getD_set_self _ _ _ (by rw [hlen]; exact hi)
    · rw [getD_set_of_ne _ _ _ _ (Ne.symm hri)]
      exact hnew r (by omega)
  · intro r h1 h2
    rw [getD_set_of_ne _ _ _ _ (by omega)]
    exact hold r (by omega) h2

/-- The regeneration sweep of `Int64` maps a window `X 0 .. X 311` of a sequence
that satisfies the reference recurrence to the next window `X 312 .. X 623`. -/
theorem generate_spec (X : Nat → Nat) (l : List Nat) (hl : l.length = NN)
    (h0 : ∀ i, i < NN → l.getD i 0 = X i)
    (hrec : ∀ i, i < NN → X (i + NN) = refNext (X i) (X (i + 1)) (X (i + MM))) :
    (generate l).length = NN ∧ ∀ i, i < NN → (generate l).getD i 0 = X (i + NN) := by
  have hNN : NN = 312 := rfl
  have hMM : MM = 156 := rfl
  have h1 := forLoop_induction
    (fun i t => t.length = NN ∧ (∀ r, r < i → t.getD r 0 = X (r + NN)) ∧
      (∀ r, i ≤ r → r < NN → t.getD r 0 = X r))
    0 (NN - MM) genStep1 l (Nat.zero_le _)
    ⟨hl, fun r hr => absurd hr (Nat.not_lt_zero r), fun r _ hr => h0 r hr⟩
    (by
      intro i t _ hi hinv
      have hi2 : i < NN := by omega
      have e : genStep1 i t = t.set i (X (i + NN)) := by
        obtain ⟨_, _, hold⟩ := hinv
        unfold genStep1
        simp only
        rw [hold i (Nat.le_refl i) hi2, hold (i + 1) (by omega) (by omega),
          hold (i + MM) (by omega) (by omega), genWord_eq, ← hrec i hi2]
      rw [e]
      exact gen_write X i t hi2 hinv)
  have h2 := forLoop_induction
    (fun i t => t.length = NN ∧ (∀ r, r < i → t.getD r 0 = X (r + NN)) ∧
      (∀ r, i ≤ r → r < NN → t.getD r 0 = X r))
    (NN - MM) (NN - 1) genStep2 (forLoop 0 (NN - MM) genStep1 l) (by decide) h1
    (by
      intro i t hlo hi hinv
      have hi2 : i < NN := by omega
      have e : genStep2 i t = t.set i (X (i + NN)) := by
        obtain ⟨_, hnew, hold⟩ := hinv
        unfold genStep2
        simp only
        rw [hold i (Nat.le_refl i) hi2, hold (i + 1) (by omega) (by omega),
          hnew (i - (NN - MM)) (by omega), genWord_eq, hrec i hi2]
        have e2 : i - (NN - MM) + NN = i + MM := by omega
        rw [e2]
      rw [e]
      exact gen_write X i t hi2 hinv)
  have e3 : generate l = (forLoop (NN - MM) (NN - 1) genStep2 (forLoop 0 (NN - MM) genStep1 l)).set
      (NN - 1) (X (NN - 1 + NN)) := by
    obtain ⟨_, hnew, hold⟩ := h2
    unfold generate genLast
    simp only
    rw [hold (NN - 1) (Nat.le_refl _) (by decide), hnew 0 (by decide), hnew (MM - 1) (by decide),
      genWord_eq, hrec (NN - 1) (by decide)]
    rfl
  have h3 := gen_write X (NN - 1) _ (by decide) h2
  rw [← e3] at h3
  refine ⟨h3.1, fun i hi => h3.2.1 i (by omega)⟩

theorem refStream_lt (seed : Int) (k : Nat) (h : k < 312) :
    refStream seed k = (NewMersenne seed).mt.getD k 0 := by
  rw [refStream]
  simp [h]

theorem refStream_add (seed : Int) (k : Nat) :
    refStream seed (k + 312)
      = refNext (refStream seed k) (refStream seed (k + 1)) (refStream seed (k + 156)) := by
  rw [refStream]
  simp

theorem StreamAt_mk (seed : Int) (n r : Nat) (mt : List Nat) (mti : Nat)
    (h1 : mt.length = NN) (h2 : mti ≤ NN)
    (h3 : ∀ i, i < NN → mt.getD i 0 = refStream seed (NN * r + i))
    (h4 : NN * r + mti = NN + n) : StreamAt seed n { mt := mt, mti := mti } :=
  ⟨r, h1, h2, h3, h4⟩

/-- A freshly seeded generator is at the start of the stream. -/
theorem StreamAt_Seed (g : MT19937) (seed : Int) (hg : g.mt.length = NN) :
    StreamAt seed 0 (Seed g seed) := by
  refine ⟨0, Seed_mt_length g seed hg, by rw [Seed_mti], ?_, by rw [Seed_mti]; rfl⟩
  intro i hi
  have hi2 : i < 312 := hi
  rw [Nat.mul_zero, Nat.zero_add, refStream_lt seed i hi2, Seed_eq_NewMersenne g seed hg]

/-- One call of `Int64` returns the next word of the stream and advances. -/
theorem Int64_StreamAt (seed : Int) (n : Nat) (m : MT19937) (h : StreamAt seed n m) :
    (Int64 m).1 = temper64 (refStream seed (NN + n)) ∧ StreamAt seed (n + 1) (Int64 m).2 := by
  obtain ⟨r, hlen, hmti, hval, hpos⟩ := h
  have hNN : NN = 312 := rfl
  by_cases hlt : m.mti < NN
  · have hre : refill m = m := by
      unfold refill
      rw [if_neg (by omega)]
    have e : Int64 m = (temper64 (m.mt.getD m.mti 0), { m with mti := m.mti + 1 }) := by
      unfold Int64
      simp only [hre]
    rw [e]
    refine ⟨?_, r, hlen, by simp only; omega, hval, by simp only; omega⟩
    simp only
    rw [hval m.mti hlt, hpos]
  · have hmeq : m.mti = NN := by omega
    have hre : refill m = { mt := generate m.mt, mti := 0 } := by
      unfold refill
      rw [if_pos (by omega)]
      simp only
      rw [if_neg (by omega)]
    have e : Int64 m = (temper64 ((generate m.mt).getD 0 0), { mt := generate m.mt, mti := 1 }) := by
      unfold Int64
      simp only [hre]
    have hg := generate_spec (fun i => refStream seed (NN * r + i)) m.mt hlen hval
      (by
        intro i _
        simp only
        have e1 : NN * r + (i + NN) = (NN * r + i) + 312 := by omega
        have e2 : NN * r + (i + 1) = (NN * r + i) + 1 := by omega
        have e3 : NN * r + (i + MM) = (NN * r + i) + 156 := by
          have hMM : MM = 156 := rfl
          omega
        rw [e1, e2, e3, refStream_add])
    rw [e]
    refine ⟨?_, StreamAt_mk seed (n + 1) (r + 1) (generate m.mt) 1 hg.1 (by omega) ?_
      (by rw [Nat.mul_add]; omega)⟩
    · simp only
      rw [hg.2 0 (by omega)]
      simp only
      have e1 : NN * r + (0 + NN) = NN + n := by omega
      rw [e1]
    · intro i hi
      rw [hg.2 i hi]
      simp only
      have e1 : NN * r + (i + NN) = NN * (r + 1) + i := by
        rw [Nat.mul_add]
        omega
      rw [e1]

/-- Call number `n + 1` from a generator that is at position `k` of the stream
returns the tempering of `x_{312+k+n}`. -/
theorem nthInt64_StreamAt (seed : Int) (n : Nat) :
    ∀ (k : Nat) (m : MT19937), StreamAt seed k m →
      nthInt64 m n = temper64 (refStream seed (NN + (k + n))) := by
  induction n with
  | zero =>
    intro k m h
    exact (Int64_StreamAt seed k m h).1
  | succ n ih =>
    intro k m h
    have h2 := ih (k + 1) (Int64 m).2 (Int64_StreamAt seed k m h).2
    have e : k + 1 + n = k + (n + 1) := by omega
    rw [e] at h2
    exact h2

theorem u64OfInt_5489 : u64OfInt 5489 = 5489 := by decide

set_option maxRecDepth 100000 in
/-- The first word of the stream for seed 5489. -/
theorem first_word_5489 :
    temper64 (refNext (seedWord 5489 0) (seedWord 5489 1) (seedWord 5489 156))
      = 14514284786278117030 := by
  decide!

/-- C1: for every seed and every generator that `Seed` is applied to, with
`x_0 .. x_311` the buffer written by `Seed` and
`x_{k+312} = x_{k+156} XOR (y >> 1) XOR (MatrixA if y is odd else 0)`,
`y = (x_k AND 0xFFFFFFFF80000000) OR (x_{k+1} AND 0x7FFFFFFF)`, call number `n + 1`
of `Int64` after `Seed` returns the tempering of `x_{312+n}`, across any number
of regenerations; and the first call on `NewMersenne(5489)` returns
14514284786278117030. -/
theorem C1_int64_reference_stream (g : MT19937) (seed : Int) (n : Nat)
    (hg : g.mt.length = NN) :
    (∀ k, k < 312 → refStream seed k = (Seed g seed).mt.getD k 0) ∧
    (∀ k, refStream seed (k + 312)
      = refNext (refStream seed k) (refStream seed (k + 1)) (refStream seed (k + 156))) ∧
    nthInt64 (Seed g seed) n = temper64 (refStream seed (312 + n)) ∧
    nthInt64 (NewMersenne 5489) 0 = 14514284786278117030 := by
  refine ⟨?_, refStream_add seed, ?_, ?_⟩
  · intro k hk
    rw [refStream_lt seed k hk, Seed_eq_NewMersenne g seed hg]
  · have h := nthInt64_StreamAt seed n 0 (Seed g seed) (StreamAt_Seed g seed hg)
    have e : NN + (0 + n) = 312 + n := by simp [NN]
    rw [e] at h
    exact h
  · have h := nthInt64_StreamAt 5489 0 0 (Seed New 5489) (StreamAt_Seed New 5489 New_mt_length)
    have e : NN + (0 + 0) = 0 + 312 := by simp [NN]
    rw [e, refStream_add, refStream_lt 5489 0 (by decide), refStream_lt 5489 (0 + 1) (by decide),
      refStream_lt 5489 (0 + 156) (by decide)] at h
    rw [NewMersenne, Seed_mt_getD New 5489 New_mt_length 0 (by decide),
      Seed_mt_getD New 5489 New_mt_length (0 + 1) (by decide),
      Seed_mt_getD New 5489 New_mt_length (0 + 156) (by decide), u64OfInt_5489] at h
    rw [NewMersenne, h]
    exact first_word_5489

/-- Instance of C1 at the unseeded generator, seed 5489 and the first call. -/
theorem C1_int64_reference_stream_witness :
    New.mt.length = NN ∧
    ((∀ k, k < 312 → refStream 5489 k = (Seed New 5489).mt.getD k 0) ∧
    (∀ k, refStream 5489 (k + 312)
      = refNext (refStream 5489 k) (refStream 5489 (k + 1)) (refStream 5489 (k + 156))) ∧
    nthInt64 (Seed New 5489) 0 = temper64 (refStream 5489 (312 + 0)) ∧
    nthInt64 (NewMersenne 5489) 0 = 14514284786278117030) :=
  ⟨New_mt_length, C1_int64_reference_stream New 5489 0 New_mt_length⟩

theorem generate_length (l : List Nat) : (generate l).length = l.length := by
  have h1 := forLoop_induction (fun _ t => t.length = l.length) 0 (NN - MM) genStep1 l
    (Nat.zero_le _) rfl (by intro i t _ _ h; simpa [genStep1] using h)
  have h2 := forLoop_induction (fun _ t => t.length = l.length) (NN - MM) (NN - 1) genStep2
    (forLoop 0 (NN - MM) genStep1 l) (by decide) h1 (by intro i t _ _ h; simpa [genStep2] using h)
  unfold generate genLast
  simpa using h2

theorem refill_length (m : MT19937) (h : m.mt.length = NN) : (refill m).mt.length = NN := by
  unfold refill
  by_cases h1 : NN ≤ m.mti
  · rw [if_pos h1]
    simp only
    rw [generate_length]
    by_cases h2 : m.mti = NN + 1
    · rw [if_pos h2]
      exact Seed_mt_length m 5489 h
    · rw [if_neg h2]
      exact h
  · rw [if_neg h1]
    exact h

theorem Int64_length (m : MT19937) (h : m.mt.length = NN) : (Int64 m).2.mt.length = NN := by
  unfold Int64
  exact refill_length m h

theorem run_length (k : Nat) : ∀ m : MT19937, m.mt.length = NN → (run k m).mt.length = NN := by
  induction k with
  | zero => intro m h; exact h
  | succ k ih => intro m h; exact ih (Int64 m).2 (Int64_length m h)

/-- C5: `Seed(s)` applied to any generator, in particular to one reached by any
number `k` of `Int64` calls, leaves the whole state (the 312 words of `mt` and
`mti`) equal to that of `NewMersenne(s)`, so every later `Int64` output equals
the corresponding output of a fresh `NewMersenne(s)`. -/
theorem C5_reseed64_restarts (g : MT19937) (seed : Int) (k n : Nat) (hg : g.mt.length = NN) :
    Seed g seed = NewMersenne seed ∧
    Seed (run k g) seed = NewMersenne seed ∧
    nthInt64 (Seed g seed) n = nthInt64 (NewMersenne seed) n ∧
    nthInt64 (Seed (run k g) seed) n = nthInt64 (NewMersenne seed) n := by
  have h1 := Seed_eq_NewMersenne g seed hg
  have h2 := Seed_eq_NewMersenne (run k g) seed (run_length k g hg)
  exact ⟨h1, h2, by rw [h1], by rw [h2]⟩

/-- Instance of C5: re-seeding with 7 after three extractions from
`NewMersenne(5489)`. -/
theorem C5_reseed64_restarts_witness :
    (NewMersenne 5489).mt.length = NN ∧
    (Seed (NewMersenne 5489) 7 = NewMersenne 7 ∧
    Seed (run 3 (NewMersenne 5489)) 7 = NewMersenne 7 ∧
    nthInt64 (Seed (NewMersenne 5489) 7) 2 = nthInt64 (NewMersenne 7) 2 ∧
    nthInt64 (Seed (run 3 (NewMersenne 5489)) 7) 2 = nthInt64 (NewMersenne 7) 2) :=
  ⟨Seed_mt_length New 5489 New_mt_length,
    C5_reseed64_restarts (NewMersenne 5489) 7 3 2 (Seed_mt_length New 5489 New_mt_length)⟩

theorem Int64_New : Int64 New = Int64 (NewMersenne 5489) := by
  have r1 : refill New = { mt := generate (Seed New 5489).mt, mti := 0 } := by
    have hm : New.mti = NN + 1 := by simp only [New]
    unfold refill
    rw [if_pos (by rw [hm]; exact Nat.le_succ NN)]
    simp only
    rw [if_pos hm]
  have r2 : refill (NewMersenne 5489) = { mt := generate (Seed New 5489).mt, mti := 0 } := by
    have hm : (NewMersenne 5489).mti = NN := by rw [NewMersenne, Seed_mti]
    unfold refill
    rw [if_pos (by rw [hm])]
    simp only
    rw [if_neg (by rw [hm]; exact Nat.ne_of_lt (Nat.lt_succ_self NN))]
    rw [NewMersenne]
  unfold Int64
  simp only [r1, r2]

/-- C9: `IntN(n)` of the 64-bit engine faults exactly when `n = 0`; for `n > 0`
it returns `w mod n` for the word `w` that `Int64` returns from the same state,
a value below `n`, and leaves the state that `Int64` leaves. -/
theorem C9_intN64 (m : MT19937) (n : Nat) :
    (IntN m n = none ↔ n = 0) ∧
    (0 < n → IntN m n = some ((Int64 m).1 % n, (Int64 m).2) ∧ (Int64 m).1 % n < n) := by
  constructor
  · unfold IntN
    by_cases h : n = 0 <;> simp [h]
  · intro h
    refine ⟨?_, Nat.mod_lt _ h⟩
    unfold IntN
    simp only
    rw [if_neg (by omega)]

/-- Instance of C9 at the unseeded generator and `n = 7`. -/
theorem C9_intN64_witness :
    (0 : Nat) < 7 ∧
    (IntN New 7 = some ((Int64 New).1 % 7, (Int64 New).2) ∧ (Int64 New).1 % 7 < 7) :=
  ⟨by decide, (C9_intN64 New 7).2 (by decide)⟩

end Twister64

/-! ## The 32-bit engine -/

namespace Twister32

theorem wrapInt_of_bounds (x : Int) (h1 : -9223372036854775808 ≤ x)
    (h2 : x < 9223372036854775808) : wrapInt x = x := by
  unfold wrapInt
  norm_num
  omega

theorem seedStep_eq (j : Nat) (l : List Nat) (hj : j < l.length) :
    seedStep j l = l.set j
      (u32 (1812433253 * (l.getD (j - 1) 0 ^^^ (l.getD (j - 1) 0 >>> 30)) + u32 j)
        &&& 0xffffffff) := by
  unfold seedStep
  simp only
  rw [getD_set_self _ _ _ hj, List.set_set]

/-- The loop of `Seed` writes the recurrence `seedWord` over the whole buffer. -/
theorem seedLoop32_spec (l : List Nat) (s0 : Nat) (hl : l.length = N) :
    (forLoop 1 N seedStep (l.set 0 s0)).length = N ∧
      ∀ j, j < N → (forLoop 1 N seedStep (l.set 0 s0)).getD j 0 = seedWord s0 j := by
  exact forLoop_induction
    (fun j t => t.length = N ∧ ∀ r, r < j → t.getD r 0 = seedWord s0 r)
    1 N seedStep (l.set 0 s0) (by decide)
    (by
      refine ⟨by simpa using hl, ?_⟩
      intro r hr
      have hr0 : r = 0 := by omega
      subst hr0
      rw [getD_set_self _ _ _ (by rw [hl]; decide)]
      rfl)
    (by
      intro i t h1 h2 ⟨hlen, hval⟩
      rw [seedStep_eq i t (by rw [hlen]; exact h2)]
      refine ⟨by simpa using hlen, ?_⟩
      intro r hr
      by_cases hri : r = i
      · subst hri
        rw [getD_set_self _ _ _ (by rw [hlen]; exact h2)]
        obtain ⟨k, rfl⟩ : ∃ k, r = k + 1 := ⟨r - 1, by omega⟩
        rw [Nat.add_sub_cancel, hval k (by omega)]
        rfl
      · rw [getD_set_of_ne _ _ _ _ (Ne.symm hri)]
        exact hval r (by omega))

theorem seedLoop32_congr (l₁ l₂ : List Nat) (s0 : Nat) (h₁ : l₁.length = N) (h₂ : l₂.length = N) :
    forLoop 1 N seedStep (l₁.set 0 s0) = forLoop 1 N seedStep (l₂.set 0 s0) := by
  have a := seedLoop32_spec l₁ s0 h₁
  have b := seedLoop32_spec l₂ s0 h₂
  apply list_ext_getD
  · rw [a.1, b.1]
  · intro i hi
    rw [a.1] at hi
    rw [a.2 i hi, b.2 i hi]

theorem Seed_eq (m : MT19937) (seed : Int) :
    Seed m seed =
      { state := forLoop 1 N seedStep (m.state.set 0 (u32OfInt seed &&& 0xffffffff))
        left := 1, initf := 1, next := m.next, nptr := m.nptr } := by
  simp only [Seed]

theorem Seed_state (m : MT19937) (seed : Int) :
    (Seed m seed).state
      = forLoop 1 N seedStep (m.state.set 0 (u32OfInt seed &&& 0xffffffff)) := by
  simp only [Seed]

theorem Seed_state_length (m : MT19937) (seed : Int) (h : m.state.length = N) :
    (Seed m seed).state.length = N := by
  rw [Seed_state]
  exact (seedLoop32_spec m.state _ h).1

theorem Seed_state_getD (m : MT19937) (seed : Int) (h : m.state.length = N) (j : Nat)
    (hj : j < N) :
    (Seed m seed).state.getD j 0 = seedWord (u32OfInt seed &&& 0xffffffff) j := by
  rw [Seed_state]
  exact (seedLoop32_spec m.state _ h).2 j hj

theorem New32_state_length : New32.state.length = N := by
  simp [New32]

/-- `Seed` twice is `Seed` once. -/
theorem Seed_Seed (m : MT19937) (seed : Int) (h : m.state.length = N) :
    Seed (Seed m seed) seed = Seed m seed := by
  rw [Seed_eq (Seed m seed), Seed_eq m]
  simp only
  rw [seedLoop32_congr _ m.state _ (seedLoop32_spec m.state _ h).1 h]

/-- `NextState` only seeds an unseeded generator, sets `left` and copies `state`
into `next`: the words written through the local array `p` do not reach the
generator. -/
theorem NextState_eq (m : MT19937) :
    NextState m =
      if m.initf = 0 then
        { state := (Seed m 5489).state, left := (N : Int), initf := 1,
          next := (Seed m 5489).state, nptr := m.nptr }
      else
        { state := m.state, left := (N : Int), initf := m.initf, next := m.state,
          nptr := m.nptr } := by
  unfold NextState NextStateAux
  simp only
  by_cases h : m.initf = 0
  · rw [if_pos h, if_pos h]
    simp only [Seed]
  · rw [if_neg h, if_neg h]

theorem N_cast : (N : Int) = 624 := by
  simp [N]

/-- `Int32` on a generator with `left = 1` that was seeded. -/
theorem Int32_refill (m : MT19937) (hl : m.left = 1) (hi : m.initf ≠ 0) (h0 : 0 ≤ m.nptr)
    (h1 : m.nptr + 1 < 624) :
    Int32 m = some (temper32 (m.state.getD (m.nptr + 1).toNat 0),
      { state := m.state, left := (N : Int), initf := m.initf, next := m.state,
        nptr := m.nptr + 1 }) := by
  have w1 : wrapInt (m.left - 1) = 0 := by rw [hl]; decide
  have w2 : wrapInt (m.nptr + 1) = m.nptr + 1 := wrapInt_of_bounds _ (by omega) (by omega)
  unfold Int32
  simp only [w1, if_true, NextState_eq, if_neg hi, w2, N_cast]
  rw [if_pos ⟨by omega, h1⟩]

theorem NextState_unseeded (m : MT19937) (hi : m.initf = 0) :
    NextState m = ⟨(Seed m 5489).state, (N : Int), 1, (Seed m 5489).state, m.nptr⟩ := by
  rw [NextState_eq, if_pos hi]

/-- `Int32` on an unseeded generator with `left = 1`: the default seed is
applied. -/
theorem Int32_unseeded (m : MT19937) (hl : m.left = 1) (hi : m.initf = 0) (h0 : 0 ≤ m.nptr)
    (h1 : m.nptr + 1 < 624) :
    Int32 m = some (temper32 ((Seed m 5489).state.getD (m.nptr + 1).toNat 0),
      ⟨(Seed m 5489).state, (N : Int), 1, (Seed m 5489).state, m.nptr + 1⟩) := by
  have w1 : wrapInt (m.left - 1) = 0 := by rw [hl]; decide
  have w2 : wrapInt (m.nptr + 1) = m.nptr + 1 := wrapInt_of_bounds _ (by omega) (by omega)
  have e : (Seed ⟨m.state, 0, m.initf, m.next, m.nptr⟩ 5489).state = (Seed m 5489).state := by
    rw [Seed_state, Seed_state]
  unfold Int32
  simp only [w1, if_true]
  rw [NextState_unseeded ⟨m.state, 0, m.initf, m.next, m.nptr⟩ hi]
  rw [e]
  generalize (Seed m 5489).state = st
  simp only [w2, N_cast]
  rw [if_pos ⟨by omega, h1⟩]

/-- `Int32` on a generator with `1 < left`: no call of `NextState`; the read
succeeds exactly when `nptr + 1` is an index of `next`. -/
theorem Int32_plain (m : MT19937) (hl1 : 1 < m.left) (hl2 : m.left ≤ 624) (h0 : 0 ≤ m.nptr)
    (h1 : m.nptr ≤ 624) :
    Int32 m =
      if m.nptr + 1 < 624 then
        some (temper32 (m.next.getD (m.nptr + 1).toNat 0),
          { state := m.state, left := m.left - 1, initf := m.initf, next := m.next,
            nptr := m.nptr + 1 })
      else none := by
  have w1 : wrapInt (m.left - 1) = m.left - 1 := wrapInt_of_bounds _ (by omega) (by omega)
  have w2 : wrapInt (m.nptr + 1) = m.nptr + 1 := wrapInt_of_bounds _ (by omega) (by omega)
  have hne : ¬ (m.left - 1 = 0) := by omega
  unfold Int32
  simp only [w1, if_neg hne, w2, N_cast]
  by_cases h : m.nptr + 1 < 624
  · rw [if_pos ⟨by omega, h⟩, if_pos h]
  · rw [if_neg (fun hh => h hh.2), if_neg h]

theorem Int32_after_pos (B : List Nat) (k : Nat) (hk1 : 1 ≤ k) (hk : k < 623) :
    Int32 ⟨B, (N : Int) + 1 - (k : Int), 1, B, (k : Int)⟩ =
      some (temper32 (B.getD (k + 1) 0),
        ⟨B, (N : Int) + 1 - ((k + 1 : Nat) : Int), 1, B, ((k + 1 : Nat) : Int)⟩) := by
  have hN := N_cast
  rw [Int32_plain _ (by simp only; omega) (by simp only; omega) (by simp only; omega)
    (by simp only; omega)]
  simp only
  rw [if_pos (by omega)]
  have e1 : ((k : Int) + 1).toNat = k + 1 := by omega
  have e2 : (N : Int) + 1 - (k : Int) - 1 = (N : Int) + 1 - ((k + 1 : Nat) : Int) := by
    push_cast
    omega
  have e3 : (k : Int) + 1 = ((k + 1 : Nat) : Int) := by push_cast; rfl
  rw [e1, e2, e3]

theorem Int32_after_last (B : List Nat) :
    Int32 ⟨B, (N : Int) + 1 - ((623 : Nat) : Int), 1, B, ((623 : Nat) : Int)⟩ = none := by
  have hN := N_cast
  rw [Int32_plain _ (by simp only; omega) (by simp only; omega) (by simp only; omega)
    (by simp only; omega)]
  simp only
  rw [if_neg (by omega)]

theorem stateAfter_zero (seed : Int) : stateAfter seed 0 = NewMersenne32 seed := by
  unfold stateAfter
  rw [if_pos rfl]

theorem stateAfter_pos (seed : Int) (k : Nat) (hk : 1 ≤ k) :
    stateAfter seed k = ⟨(NewMersenne32 seed).state, (N : Int) + 1 - (k : Int), 1,
      (NewMersenne32 seed).state, (k : Int)⟩ := by
  unfold stateAfter
  rw [if_neg (by omega)]

theorem NewMersenne32_eq (seed : Int) :
    NewMersenne32 seed = ⟨(NewMersenne32 seed).state, 1, 1, New32.next, 0⟩ := by
  unfold NewMersenne32
  rw [Seed_state]
  conv_lhs => rw [Seed_eq]
  generalize forLoop 1 N seedStep _ = B
  simp only [New32]

/-- A call of `Int32` on the generator reached after `k < 623` calls returns the
tempering of word `k + 1` of the seeded buffer. -/
theorem Int32_stateAfter (seed : Int) (k : Nat) (hk : k < 623) :
    Int32 (stateAfter seed k) =
      some (temper32 ((NewMersenne32 seed).state.getD (k + 1) 0), stateAfter seed (k + 1)) := by
  rw [stateAfter_pos seed (k + 1) (by omega)]
  by_cases h0 : k = 0
  · subst h0
    rw [stateAfter_zero]
    have hs := NewMersenne32_eq seed
    generalize (NewMersenne32 seed).state = B at hs ⊢
    rw [hs, Int32_refill _ rfl (by simp only; decide) (by simp only; decide)
      (by simp only; decide)]
    have hN := N_cast
    have e2 : (N : Int) + 1 - ((0 + 1 : Nat) : Int) = (N : Int) := by
      push_cast
      omega
    rw [e2]
    rfl
  · rw [stateAfter_pos seed k (by omega)]
    exact Int32_after_pos _ k (by omega) hk

/-- Call number 624 panics. -/
theorem Int32_stateAfter_last (seed : Int) : Int32 (stateAfter seed 623) = none := by
  rw [stateAfter_pos seed 623 (by decide)]
  exact Int32_after_last _

theorem run_stateAfter (seed : Int) (n : Nat) :
    ∀ k, k + n ≤ 623 → run n (stateAfter seed k) = some (stateAfter seed (k + n)) := by
  induction n with
  | zero => intro k _; rfl
  | succ n ih =>
    intro k hk
    rw [run, Int32_stateAfter seed k (by omega)]
    simp only
    rw [ih (k + 1) (by omega)]
    have e : k + 1 + n = k + (n + 1) := by omega
    rw [e]

/-- The words returned by the calls of `Int32` on `NewMersenne32(seed)`: call
number `n + 1 <= 623` returns the tempering of word `n + 1` of the seeded
buffer, call number 624 panics. -/
theorem nthInt32_NewMersenne32 (seed : Int) (n : Nat) :
    nthInt32 (NewMersenne32 seed) n =
      if n < 623 then some (temper32 ((NewMersenne32 seed).state.getD (n + 1) 0)) else
      if n = 623 then none else nthInt32 (NewMersenne32 seed) n := by
  by_cases h : n < 623
  · rw [if_pos h]
    unfold nthInt32
    rw [← stateAfter_zero, run_stateAfter seed n 0 (by omega)]
    simp only
    rw [Int32_stateAfter seed (0 + n) (by omega), Nat.zero_add]
    rfl
  · rw [if_neg h]
    by_cases h2 : n = 623
    · rw [if_pos h2]
      subst h2
      unfold nthInt32
      rw [← stateAfter_zero, run_stateAfter seed 623 0 (by omega)]
      simp only
      rw [Int32_stateAfter_last]
      rfl
    · rw [if_neg h2]

theorem u32OfInt_5489 : u32OfInt 5489 &&& 0xffffffff = 5489 := by decide

theorem NewMersenne32_getD (seed : Int) (j : Nat) (hj : j < N) :
    (NewMersenne32 seed).state.getD j 0 = seedWord (u32OfInt seed &&& 0xffffffff) j := by
  rw [NewMersenne32]
  exact Seed_state_getD New32 seed New32_state_length j hj

/-- The first call of `Int32` on the unseeded generator is the first call on
`NewMersenne32(5489)`. -/
theorem Int32_New32 : Int32 New32 = Int32 (NewMersenne32 5489) := by
  have h1 := Int32_unseeded New32 rfl rfl (by decide) (by decide)
  have h2 := Int32_stateAfter 5489 0 (by decide)
  rw [stateAfter_zero, stateAfter_pos 5489 (0 + 1) (by decide)] at h2
  rw [h1, h2, NewMersenne32]
  generalize (Seed New32 5489).state = B
  have hN := N_cast
  have e1 : New32.nptr + 1 = ((0 + 1 : Nat) : Int) := by decide
  have e2 : (N : Int) + 1 - ((0 + 1 : Nat) : Int) = (N : Int) := by
    push_cast
    omega
  rw [e1, e2]
  rfl

theorem run_succ (n : Nat) (m : MT19937) :
    run (n + 1) m = match Int32 m with
      | none => none
      | some r => run n r.2 := rfl

theorem nthInt32_New32 (n : Nat) : nthInt32 New32 n = nthInt32 (NewMersenne32 5489) n := by
  cases n with
  | zero =>
    unfold nthInt32 run
    simp only
    rw [Int32_New32]
  | succ n =>
    unfold nthInt32
    rw [run_succ, run_succ, Int32_New32]

/-- C2 (the code at the failing input): on `NewMersenne32(5489)`, `NextState`
leaves in `next` the buffer written by `Seed`, not a recomputed buffer, and the
first word extracted is 1228475205, the tempering of word 1 of that buffer, not
the published value 3499211612. -/
theorem C2_nextState_no_recurrence :
    (NextState (NewMersenne32 5489)).next = (NewMersenne32 5489).state ∧
    nthInt32 (NewMersenne32 5489) 0
      = some (temper32 ((NewMersenne32 5489).state.getD 1 0)) ∧
    nthInt32 (NewMersenne32 5489) 0 = some 1228475205 := by
  have h := nthInt32_NewMersenne32 5489 0
  rw [if_pos (by decide)] at h
  refine ⟨?_, h, ?_⟩
  · rw [NextState_eq, if_neg]
    rw [NewMersenne32, Seed_eq]
    simp only
    decide
  · rw [h, NewMersenne32_getD 5489 (0 + 1) (by decide), u32OfInt_5489]
    decide

/-- C4 (the code at the failing input): on `NewMersenne32(seed)`, for every seed,
and on the unseeded generator, the first 623 calls of `Int32` return a word and
call number 624 panics: the read index `nptr` has reached 624. -/
theorem C4_int32_call_624_panics (seed : Int) :
    (∀ n : Fin 623, ∃ w, nthInt32 (NewMersenne32 seed) n = some w) ∧
    nthInt32 (NewMersenne32 seed) 623 = none ∧
    run 623 (NewMersenne32 seed) = some (stateAfter seed 623) ∧
    (stateAfter seed 623).nptr + 1 = 624 ∧
    nthInt32 New32 623 = none := by
  refine ⟨?_, ?_, ?_, ?_, ?_⟩
  · intro n
    refine ⟨temper32 ((NewMersenne32 seed).state.getD ((n : Nat) + 1) 0), ?_⟩
    rw [nthInt32_NewMersenne32, if_pos n.isLt]
  · rw [nthInt32_NewMersenne32, if_neg (by decide), if_pos rfl]
  · rw [← stateAfter_zero, run_stateAfter seed 623 0 (by decide)]
  · rw [stateAfter_pos seed 623 (by decide)]
    simp only
    decide
  · rw [nthInt32_New32, nthInt32_NewMersenne32, if_neg (by decide), if_pos rfl]

theorem stateAfter_state_length (seed : Int) (k : Nat) :
    (stateAfter seed k).state.length = N := by
  have h : (NewMersenne32 seed).state.length = N := by
    rw [NewMersenne32]
    exact Seed_state_length New32 seed New32_state_length
  by_cases hk : k = 0
  · subst hk
    rw [stateAfter_zero]
    exact h
  · rw [stateAfter_pos seed k (by omega)]
    generalize (NewMersenne32 seed).state = B at h ⊢
    exact h

/-- `Seed` after `k >= 1` calls keeps the read index `nptr = k`. -/
theorem Seed_stateAfter (seed : Int) (k : Nat) (hk : 1 ≤ k) :
    Seed (stateAfter seed k) seed
      = ⟨(NewMersenne32 seed).state, 1, 1, (NewMersenne32 seed).state, (k : Int)⟩ := by
  have hl := stateAfter_state_length seed k
  have e : (Seed (stateAfter seed k) seed).state = (NewMersenne32 seed).state := by
    rw [Seed_state, NewMersenne32, Seed_state]
    exact seedLoop32_congr _ _ _ hl New32_state_length
  have e2 := Seed_eq (stateAfter seed k) seed
  rw [← Seed_state, e] at e2
  rw [e2, stateAfter_pos seed k hk]

/-- The first call of `Int32` after re-seeding a generator that has made
`k >= 1` calls returns word `k + 1` of the seeded buffer: the sequence goes on
instead of starting again. -/
theorem Int32_after_reseed (seed : Int) (k : Nat) (hk : 1 ≤ k) (hk2 : k < 623) :
    nthInt32 (Seed (stateAfter seed k) seed) 0
      = some (temper32 ((NewMersenne32 seed).state.getD (k + 1) 0)) := by
  rw [Seed_stateAfter seed k hk]
  generalize (NewMersenne32 seed).state = B
  unfold nthInt32 run
  simp only
  rw [Int32_refill _ rfl (by simp only; decide) (by simp only; omega) (by simp only; omega)]
  simp only [Option.map]
  have e1 : ((k : Int) + 1).toNat = k + 1 := by omega
  rw [e1]

/-- C6 (the code at the failing input): take `NewMersenne32(5489)`, extract one
word (1228475205), call `Seed(5489)` again and extract: the word is 930876788,
the second word of the original sequence, not its first word. -/
theorem C6_reseed32_continues :
    nthInt32 (NewMersenne32 5489) 0 = some 1228475205 ∧
    run 1 (NewMersenne32 5489) = some (stateAfter 5489 1) ∧
    nthInt32 (Seed (stateAfter 5489 1) 5489) 0 = some 930876788 ∧
    nthInt32 (NewMersenne32 5489) 1 = some 930876788 := by
  have h0 := nthInt32_NewMersenne32 5489 0
  have h1 := nthInt32_NewMersenne32 5489 1
  rw [if_pos (by decide)] at h0 h1
  have hr := Int32_after_reseed 5489 1 (by decide) (by decide)
  have hw1 : temper32 ((NewMersenne32 5489).state.getD (0 + 1) 0) = 1228475205 := by
    rw [NewMersenne32_getD 5489 (0 + 1) (by decide), u32OfInt_5489]
    decide
  have hw2 : temper32 ((NewMersenne32 5489).state.getD (1 + 1) 0) = 930876788 := by
    rw [NewMersenne32_getD 5489 (1 + 1) (by decide), u32OfInt_5489]
    decide
  rw [hw1] at h0
  rw [hw2] at h1 hr
  refine ⟨h0, ?_, hr, h1⟩
  rw [← stateAfter_zero, run_stateAfter 5489 1 0 (by decide)]

/-- C10 (the code at the failing input): `IntN(4294967296)` on
`NewMersenne32(5489)` panics with a division by zero although `Int32` succeeds
from that state and the bound is positive: `uint32(4294967296)` is `0`. -/
theorem C10_intN32_divides_by_zero :
    IntN (NewMersenne32 5489) 4294967296 = none ∧
    (∃ r, Int32 (NewMersenne32 5489) = some r) ∧
    u32OfInt 4294967296 = 0 ∧ (0 : Int) < 4294967296 := by
  have h := Int32_stateAfter 5489 0 (by decide)
  rw [stateAfter_zero] at h
  refine ⟨?_, ⟨_, h⟩, by decide, by decide⟩
  unfold IntN
  rw [h]
  simp only
  rw [if_pos (by decide)]

end Twister32

/-! ## Both engines -/

/-- C7: on both engines `Seed(s)` twice in a row leaves the same generator
state, every field, as `Seed(s)` once. -/
theorem C7_seed_idempotent (g64 : Twister64.MT19937) (g32 : Twister32.MT19937) (seed : Int)
    (h64 : g64.mt.length = Twister64.NN) (h32 : g32.state.length = Twister32.N) :
    Twister64.Seed (Twister64.Seed g64 seed) seed = Twister64.Seed g64 seed ∧
    Twister32.Seed (Twister32.Seed g32 seed) seed = Twister32.Seed g32 seed := by
  refine ⟨?_, Twister32.Seed_Seed g32 seed h32⟩
  rw [Twister64.Seed_eq_NewMersenne _ seed (Twister64.Seed_mt_length g64 seed h64),
    Twister64.Seed_eq_NewMersenne g64 seed h64]

/-- Instance of C7 at the unseeded generators and seed 5489. -/
theorem C7_seed_idempotent_witness :
    Twister64.New.mt.length = Twister64.NN ∧ Twister32.New32.state.length = Twister32.N ∧
    (Twister64.Seed (Twister64.Seed Twister64.New 5489) 5489
        = Twister64.Seed Twister64.New 5489 ∧
      Twister32.Seed (Twister32.Seed Twister32.New32 5489) 5489
        = Twister32.Seed Twister32.New32 5489) :=
  ⟨Twister64.New_mt_length, Twister32.New32_state_length,
    C7_seed_idempotent Twister64.New Twister32.New32 5489 Twister64.New_mt_length
      Twister32.New32_state_length⟩

/-- The index of the read `m.mt[m.mti]` of `Int64` is always in range. -/
theorem Twister64.refill_mti_lt (m : Twister64.MT19937) :
    (Twister64.refill m).mti < Twister64.NN := by
  unfold Twister64.refill
  by_cases h : Twister64.NN ≤ m.mti
  · rw [if_pos h]
    show 0 < Twister64.NN
    decide
  · rw [if_neg h]
    omega

theorem Twister64.nthInt64_New (n : Nat) :
    Twister64.nthInt64 Twister64.New n
      = Twister64.nthInt64 (Twister64.NewMersenne 5489) n := by
  cases n with
  | zero =>
    unfold Twister64.nthInt64 Twister64.run
    rw [Twister64.Int64_New]
  | succ n =>
    unfold Twister64.nthInt64 Twister64.run
    rw [Twister64.Int64_New]

/-- C8: the first extraction on an unseeded generator (`New()`, `New32()`) does
not fail (the read index of `Int64` is in range, `Int32` returns a result) and
returns the same word and leaves the same state as the first
extraction on `NewMersenne(5489)`, `NewMersenne32(5489)`; hence every later
call gives the same result on both. -/
theorem C8_default_seed :
    (Twister64.refill Twister64.New).mti < Twister64.NN ∧
    Twister64.Int64 Twister64.New = Twister64.Int64 (Twister64.NewMersenne 5489) ∧
    Twister32.Int32 Twister32.New32 = Twister32.Int32 (Twister32.NewMersenne32 5489) ∧
    (∃ r, Twister32.Int32 Twister32.New32 = some r) ∧
    (∀ n, Twister64.nthInt64 Twister64.New n
      = Twister64.nthInt64 (Twister64.NewMersenne 5489) n) ∧
    (∀ n, Twister32.nthInt32 Twister32.New32 n
      = Twister32.nthInt32 (Twister32.NewMersenne32 5489) n) := by
  refine ⟨Twister64.refill_mti_lt _, Twister64.Int64_New, Twister32.Int32_New32, ?_,
    Twister64.nthInt64_New,
    Twister32.nthInt32_New32⟩
  have h := Twister32.Int32_stateAfter 5489 0 (by decide)
  rw [Twister32.stateAfter_zero] at h
  exact ⟨_, Twister32.Int32_New32.trans h⟩

/-! ## Array seeding of the 32-bit engine -/

namespace Twister32

theorem u32_small (x : Nat) (h : x < 4294967296) : u32 x = x := by
  unfold u32
  exact Nat.mod_eq_of_lt (by norm_num; exact h)

theorem keyStep1_eq (key : List Nat) (s : KeyLoop) (hk : key.length = N)
    (hl : s.state.length = N) (hi : s.i < N) (hj : s.j < N) :
    keyStep1 key s =
      ⟨if s.i + 1 = N then
          (s.state.set s.i (keyMix1 (s.state.getD s.i 0) (s.state.getD (s.i - 1) 0)
            (key.getD s.j 0) s.j)).set 0 (keyMix1 (s.state.getD s.i 0)
              (s.state.getD (s.i - 1) 0) (key.getD s.j 0) s.j)
        else s.state.set s.i (keyMix1 (s.state.getD s.i 0) (s.state.getD (s.i - 1) 0)
            (key.getD s.j 0) s.j),
        if s.i + 1 = N then 1 else s.i + 1,
        if s.j + 1 = N then 0 else s.j + 1⟩ := by
  have hN : N = 624 := rfl
  obtain ⟨st, i, j⟩ := s
  simp only at hl hi hj ⊢
  have ei : u32 (i + 1) = i + 1 := u32_small _ (by omega)
  have ej : u32 (j + 1) = j + 1 := u32_small _ (by omega)
  have ek : u32 key.length = N := by rw [hk]; exact u32_small _ (by omega)
  unfold keyStep1 keyMix1
  simp only [ei, ej, ek]
  rw [getD_set_self _ _ _ (by omega), List.set_set]
  generalize u32 ((st.getD i 0 ^^^ u32 ((st.getD (i - 1) 0 ^^^ st.getD (i - 1) 0 >>> 30)
    * 1664525)) + key.getD j 0 + j) &&& 4294967295 = v
  have c1 : (N ≤ i + 1) ↔ (i + 1 = N) := by omega
  have c2 : (N ≤ j + 1) ↔ (j + 1 = N) := by omega
  simp only [c1, c2]
  by_cases h1 : i + 1 = N
  · have e : i = N - 1 := by omega
    simp only [h1, if_true]
    rw [e, getD_set_self _ _ _ (by omega)]
  · simp only [h1, if_false]


theorem keyStep2_eq (s : KeyLoop) (hl : s.state.length = N) (hi : s.i < N) :
    keyStep2 s =
      ⟨if s.i + 1 = N then
          (s.state.set s.i (keyMix2 (s.state.getD s.i 0) (s.state.getD (s.i - 1) 0) s.i)).set 0
            (keyMix2 (s.state.getD s.i 0) (s.state.getD (s.i - 1) 0) s.i)
        else s.state.set s.i (keyMix2 (s.state.getD s.i 0) (s.state.getD (s.i - 1) 0) s.i),
        if s.i + 1 = N then 1 else s.i + 1,
        s.j⟩ := by
  have hN : N = 624 := rfl
  obtain ⟨st, i, j⟩ := s
  simp only at hl hi ⊢
  have ei : u32 (i + 1) = i + 1 := u32_small _ (by omega)
  unfold keyStep2 keyMix2
  simp only [ei]
  rw [getD_set_self _ _ _ (by omega), List.set_set]
  generalize u32 ((st.getD i 0 ^^^ u32 ((st.getD (i - 1) 0 ^^^ st.getD (i - 1) 0 >>> 30)
    * 1566083941)) + (2 ^ 32 - i)) &&& 4294967295 = v
  have c1 : (N ≤ i + 1) ↔ (i + 1 = N) := by omega
  simp only [c1]
  by_cases h1 : i + 1 = N
  · have e : i = N - 1 := by omega
    simp only [h1, if_true]
    rw [e, getD_set_self _ _ _ (by omega)]
  · simp only [h1, if_false]

/-- The first loop of `SeedArray` before the wrap-around of `i`: after `t` steps
the words `1 .. t` hold `fwdWord`. -/
theorem pass1_prefix (key l0 : List Nat) (S : Nat → Nat) (hk : key.length = N)
    (hl : l0.length = N) (hS : ∀ r, r < N → l0.getD r 0 = S r) (t : Nat) (ht : t + 2 ≤ N) :
    ((keyStep1 key)^[t] ⟨l0, 1, 0⟩).i = t + 1 ∧ ((keyStep1 key)^[t] ⟨l0, 1, 0⟩).j = t ∧
    ((keyStep1 key)^[t] ⟨l0, 1, 0⟩).state.length = N ∧
    ∀ r, r < N → ((keyStep1 key)^[t] ⟨l0, 1, 0⟩).state.getD r 0
      = if r ≤ t then fwdWord key S r else S r := by
  have hN : N = 624 := rfl
  induction t with
  | zero =>
    rw [Function.iterate_zero, id]
    refine ⟨rfl, rfl, hl, ?_⟩
    intro r hr
    simp only
    by_cases h0 : r ≤ 0
    · have e : r = 0 := by omega
      subst e
      rw [if_pos h0, hS 0 hr]
      rfl
    · rw [if_neg h0, hS r hr]
  | succ t ih =>
    have ih := ih (by omega)
    rw [Function.iterate_succ_apply']
    generalize (keyStep1 key)^[t] ⟨l0, 1, 0⟩ = s at ih ⊢
    obtain ⟨hi, hj, hlen, hv⟩ := ih
    rw [keyStep1_eq key s hk hlen (by omega) (by omega)]
    obtain ⟨st, i, j⟩ := s
    simp only at hi hj hlen hv ⊢
    subst hi hj
    rw [if_neg (by omega), if_neg (by omega), if_neg (by omega)]
    refine ⟨rfl, rfl, by simpa using hlen, ?_⟩
    intro r hr
    by_cases hr1 : r = j + 1
    · subst hr1
      rw [getD_set_self _ _ _ (by omega), if_pos (Nat.le_refl _), hv (j + 1) hr,
        if_neg (by omega), Nat.add_sub_cancel, hv j (by omega), if_pos (Nat.le_refl _)]
      rfl
    · rw [getD_set_of_ne _ _ _ _ (Ne.symm hr1), hv r hr]
      by_cases hr2 : r ≤ j
      · rw [if_pos hr2, if_pos (by omega)]
      · rw [if_neg hr2, if_neg (by omega)]



theorem fwdWord_succ (key : List Nat) (S : Nat → Nat) (r : Nat) :
    fwdWord key S (r + 1) = keyMix1 (S (r + 1)) (fwdWord key S r) (key.getD r 0) r := rfl

theorem bwdWord_one (key : List Nat) (S : Nat → Nat) : bwdWord key S 1 = fwdWrap key S := rfl

theorem bwdWord_succ (key : List Nat) (S : Nat → Nat) (r : Nat) (h : r ≠ 0) :
    bwdWord key S (r + 1) = keyMix2 (fwdWord key S (r + 1)) (bwdWord key S r) (r + 1) := by
  rw [bwdWord, if_neg h]

/-- The state after the first loop of `SeedArray`. -/
theorem pass1_full (key l0 : List Nat) (S : Nat → Nat) (hk : key.length = N)
    (hl : l0.length = N) (hS : ∀ r, r < N → l0.getD r 0 = S r) :
    ((keyStep1 key)^[N] ⟨l0, 1, 0⟩).i = 2 ∧
    ((keyStep1 key)^[N] ⟨l0, 1, 0⟩).state.length = N ∧
    ∀ r, r < N → ((keyStep1 key)^[N] ⟨l0, 1, 0⟩).state.getD r 0
      = if r = 0 then fwdWord key S (N - 1) else
        if r = 1 then fwdWrap key S else fwdWord key S r := by
  have hN : N = 624 := rfl
  have e : (keyStep1 key)^[N] ⟨l0, 1, 0⟩
      = keyStep1 key (keyStep1 key ((keyStep1 key)^[622] ⟨l0, 1, 0⟩)) := by
    have hN2 : N = 622 + 1 + 1 := rfl
    conv_lhs => rw [hN2]
    rw [Function.iterate_succ_apply', Function.iterate_succ_apply']
  rw [e]
  have h := pass1_prefix key l0 S hk hl hS 622 (by omega)
  generalize (keyStep1 key)^[622] ⟨l0, 1, 0⟩ = s at h ⊢
  obtain ⟨st, i, j⟩ := s
  obtain ⟨hi, hj, hlen, hv⟩ := h
  simp only at hi hj hlen hv
  subst hi hj
  rw [keyStep1_eq key ⟨st, 622 + 1, 622⟩ hk hlen (by show 622 + 1 < N; omega)
    (by show 622 < N; omega)]
  simp only
  rw [if_pos (by omega), if_pos (by omega), if_neg (by omega)]
  have hv1 : st.getD (622 + 1) 0 = S (622 + 1) := by
    rw [hv _ (by omega), if_neg (by omega)]
  have hv2 : st.getD (622 + 1 - 1) 0 = fwdWord key S 622 := by
    rw [Nat.add_sub_cancel, hv _ (by omega), if_pos (Nat.le_refl _)]
  rw [hv1, hv2, ← fwdWord_succ]
  have hlenA : ((st.set (622 + 1) (fwdWord key S (622 + 1))).set 0
      (fwdWord key S (622 + 1))).length = N := by simpa using hlen
  have hvA : ∀ r, r < N → ((st.set (622 + 1) (fwdWord key S (622 + 1))).set 0
      (fwdWord key S (622 + 1))).getD r 0
        = if r = 0 then fwdWord key S (622 + 1) else fwdWord key S r := by
    intro r hr
    by_cases h0 : r = 0
    · subst h0
      rw [getD_set_self _ _ _ (by simp; omega), if_pos rfl]
    · rw [getD_set_of_ne _ _ _ _ (Ne.symm h0), if_neg h0]
      by_cases h1 : r = 622 + 1
      · subst h1
        rw [getD_set_self _ _ _ (by omega)]
      · rw [getD_set_of_ne _ _ _ _ (Ne.symm h1), hv r hr, if_pos (by omega)]
  generalize (st.set (622 + 1) (fwdWord key S (622 + 1))).set 0 (fwdWord key S (622 + 1)) = sA
    at hlenA hvA ⊢
  rw [keyStep1_eq key ⟨sA, 1, 622 + 1⟩ hk hlenA (by show 1 < N; omega)
    (by show 622 + 1 < N; omega)]
  simp only
  rw [if_neg (by omega), if_neg (by omega)]
  refine ⟨rfl, by simpa using hlenA, ?_⟩
  intro r hr
  have e1 : N - 1 = 622 + 1 := by omega
  rw [e1]
  by_cases h1 : r = 1
  · subst h1
    rw [getD_set_self _ _ _ (by omega), if_neg (by omega), if_pos rfl, hvA 1 (by omega),
      if_neg (by omega), hvA 0 (by omega), if_pos rfl]
    unfold fwdWrap
    rw [e1]
  · rw [getD_set_of_ne _ _ _ _ (Ne.symm h1), hvA r hr]
    by_cases h0 : r = 0
    · rw [if_pos h0, if_pos h0]
    · rw [if_neg h0, if_neg h0, if_neg h1]



/-- The second loop of `SeedArray` before the wrap-around of `i`: after `t` steps
the words `1 .. t + 1` hold `bwdWord`. -/
theorem pass2_prefix (key : List Nat) (S : Nat → Nat) (s1 : KeyLoop) (hi1 : s1.i = 2)
    (hl1 : s1.state.length = N)
    (hv1 : ∀ r, r < N → s1.state.getD r 0
      = if r = 0 then fwdWord key S (N - 1) else
        if r = 1 then fwdWrap key S else fwdWord key S r)
    (t : Nat) (ht : t + 3 ≤ N) :
    (keyStep2^[t] s1).i = t + 2 ∧ (keyStep2^[t] s1).state.length = N ∧
    ∀ r, r < N → (keyStep2^[t] s1).state.getD r 0
      = if r = 0 then fwdWord key S (N - 1) else
        if r ≤ t + 1 then bwdWord key S r else fwdWord key S r := by
  have hN : N = 624 := rfl
  induction t with
  | zero =>
    rw [Function.iterate_zero, id]
    refine ⟨hi1, hl1, ?_⟩
    intro r hr
    rw [hv1 r hr]
    by_cases h0 : r = 0
    · rw [if_pos h0, if_pos h0]
    · rw [if_neg h0, if_neg h0]
      by_cases h1 : r = 1
      · subst h1
        rw [if_pos rfl, if_pos (by omega), bwdWord_one]
      · rw [if_neg h1, if_neg (by omega)]
  | succ t ih =>
    have ih := ih (by omega)
    rw [Function.iterate_succ_apply']
    generalize keyStep2^[t] s1 = s at ih ⊢
    obtain ⟨st, i, j⟩ := s
    obtain ⟨hi, hlen, hv⟩ := ih
    simp only at hi hlen hv
    subst hi
    rw [keyStep2_eq ⟨st, t + 2, j⟩ hlen (by show t + 2 < N; omega)]
    simp only
    rw [if_neg (by omega), if_neg (by omega)]
    refine ⟨rfl, by simpa using hlen, ?_⟩
    intro r hr
    by_cases hr1 : r = t + 2
    · subst hr1
      have e1 : t + 2 - 1 = t + 1 := by omega
      rw [getD_set_self _ _ _ (by omega), if_neg (by omega), if_pos (by omega), hv (t + 2) hr,
        if_neg (by omega), if_neg (by omega), e1, hv (t + 1) (by omega), if_neg (by omega),
        if_pos (Nat.le_refl _), bwdWord_succ key S (t + 1) (by omega)]
    · rw [getD_set_of_ne _ _ _ _ (Ne.symm hr1), hv r hr]
      by_cases h0 : r = 0
      · rw [if_pos h0, if_pos h0]
      · rw [if_neg h0, if_neg h0]
        by_cases hr2 : r ≤ t + 1
        · rw [if_pos hr2, if_pos (by omega)]
        · rw [if_neg hr2, if_neg (by omega)]

/-- Word 1 after the second loop of `SeedArray`. -/
theorem pass2_full (key : List Nat) (S : Nat → Nat) (s1 : KeyLoop) (hi1 : s1.i = 2)
    (hl1 : s1.state.length = N)
    (hv1 : ∀ r, r < N → s1.state.getD r 0
      = if r = 0 then fwdWord key S (N - 1) else
        if r = 1 then fwdWrap key S else fwdWord key S r) :
    (keyStep2^[N - 1] s1).state.length = N ∧
    (keyStep2^[N - 1] s1).state.getD 1 0 = arrayWord1 key S := by
  have hN : N = 624 := rfl
  have e : keyStep2^[N - 1] s1 = keyStep2 (keyStep2 (keyStep2^[621] s1)) := by
    have hN2 : N - 1 = 621 + 1 + 1 := rfl
    rw [hN2, Function.iterate_succ_apply', Function.iterate_succ_apply']
  rw [e]
  have h := pass2_prefix key S s1 hi1 hl1 hv1 621 (by omega)
  generalize keyStep2^[621] s1 = s at h ⊢
  obtain ⟨st, i, j⟩ := s
  obtain ⟨hi, hlen, hv⟩ := h
  simp only at hi hlen hv
  subst hi
  have e1 : N - 1 = 621 + 2 := by omega
  rw [e1] at hv
  rw [keyStep2_eq ⟨st, 621 + 2, j⟩ hlen (by show 621 + 2 < N; omega)]
  simp only
  rw [if_pos (by omega), if_pos (by omega)]
  have e2 : 621 + 2 - 1 = 621 + 1 := by omega
  have hw1 : st.getD (621 + 2) 0 = fwdWord key S (621 + 1 + 1) := by
    rw [hv _ (by omega), if_neg (by omega), if_neg (by omega)]
  have hw2 : st.getD (621 + 2 - 1) 0 = bwdWord key S (621 + 1) := by
    rw [e2, hv _ (by omega), if_neg (by omega), if_pos (Nat.le_refl _)]
  have hb : keyMix2 (st.getD (621 + 2) 0) (st.getD (621 + 2 - 1) 0) (621 + 2)
      = bwdWord key S (621 + 1 + 1) := by
    rw [hw1, hw2, bwdWord_succ key S (621 + 1) (by omega)]
  rw [hb]
  have hlenA : ((st.set (621 + 2) (bwdWord key S (621 + 1 + 1))).set 0
      (bwdWord key S (621 + 1 + 1))).length = N := by simpa using hlen
  have hA0 : ((st.set (621 + 2) (bwdWord key S (621 + 1 + 1))).set 0
      (bwdWord key S (621 + 1 + 1))).getD 0 0 = bwdWord key S (621 + 1 + 1) := by
    rw [getD_set_self _ _ _ (by simp; omega)]
  have hA1 : ((st.set (621 + 2) (bwdWord key S (621 + 1 + 1))).set 0
      (bwdWord key S (621 + 1 + 1))).getD 1 0 = fwdWrap key S := by
    rw [getD_set_of_ne _ _ _ _ (by omega), getD_set_of_ne _ _ _ _ (by omega), hv 1 (by omega),
      if_neg (by omega), if_pos (by omega), bwdWord_one]
  generalize (st.set (621 + 2) (bwdWord key S (621 + 1 + 1))).set 0
    (bwdWord key S (621 + 1 + 1)) = sA at hlenA hA0 hA1 ⊢
  rw [keyStep2_eq ⟨sA, 1, j⟩ hlenA (by show 1 < N; omega)]
  simp only
  rw [if_neg (by omega)]
  refine ⟨by simpa using hlenA, ?_⟩
  rw [getD_set_self _ _ _ (by omega), hA1, Nat.sub_self, hA0]
  unfold arrayWord1
  rw [e1]

theorem seed_19650218 : u32OfInt 19650218 &&& 0xffffffff = 19650218 := by decide

/-- After `SeedArray` with an `N`-word key: the fields of the generator, and
words 0 and 1 of the buffer. -/
theorem SeedArray_spec (m : MT19937) (key : List Nat) (hm : m.state.length = N)
    (hk : key.length = N) :
    (SeedArray m key).left = 1 ∧ (SeedArray m key).initf = 1 ∧
    (SeedArray m key).next = m.next ∧ (SeedArray m key).nptr = m.nptr ∧
    (SeedArray m key).state.length = N ∧
    (SeedArray m key).state.getD 0 0 = 0x80000000 ∧
    (SeedArray m key).state.getD 1 0 = arrayWord1 key (seedWord 19650218) := by
  have hN : N = 624 := rfl
  have h1 := pass1_full key (Seed m 19650218).state (seedWord 19650218) hk
    (Seed_state_length m _ hm)
    (by
      intro r hr
      rw [Seed_state_getD m _ hm r hr, seed_19650218])
  have h2 := pass2_full key (seedWord 19650218) _ h1.1 h1.2.1 h1.2.2
  have e : SeedArray m key = ⟨(keyStep2^[N - 1] ((keyStep1 key)^[N]
      ⟨(Seed m 19650218).state, 1, 0⟩)).state.set 0 0x80000000, 1, 1, m.next, m.nptr⟩ := by
    unfold SeedArray
    simp only
    rw [if_pos (by omega), hk]
    generalize (keyStep2^[N - 1] ((keyStep1 key)^[N] ⟨(Seed m 19650218).state, 1, 0⟩)).state = B
    simp only [Seed]
  rw [e]
  generalize (keyStep2^[N - 1] ((keyStep1 key)^[N] ⟨(Seed m 19650218).state, 1, 0⟩)).state = B
    at h2 ⊢
  refine ⟨rfl, rfl, rfl, rfl, by simpa using h2.1, ?_, ?_⟩
  · exact getD_set_self _ _ _ (by omega)
  · show (B.set 0 0x80000000).getD 1 0 = _
    rw [getD_set_of_ne _ _ _ _ (by omega), h2.2]

theorem scenarioKey_length : scenarioKey.length = N := by
  rw [scenarioKey, List.length_append, List.length_replicate]
  rfl

set_option maxRecDepth 1000000 in
/-- Word 1 of the buffer after `SeedArray` with the scenario key. -/
theorem scenario_word1 : arrayWord1 scenarioKey (seedWord 19650218) = 3466548840 := by
  decide!

/-- The first call of `Int32` after `SeedArray` on the unseeded generator returns
the tempering of word 1 of the buffer. -/
theorem nthInt32_SeedArray (key : List Nat) (hk : key.length = N) :
    nthInt32 (SeedArray New32 key) 0
      = some (temper32 ((SeedArray New32 key).state.getD 1 0)) := by
  obtain ⟨h1, h2, _, h4, _, _, _⟩ := SeedArray_spec New32 key New32_state_length hk
  have h4b : (SeedArray New32 key).nptr = 0 := by rw [h4]; rfl
  unfold nthInt32 run
  simp only
  rw [Int32_refill _ h1 (by rw [h2]; decide) (by rw [h4b]) (by rw [h4b]; decide)]
  simp only [Option.map]
  rw [h4b]
  rfl

/-- C3 (counterexample): after `SeedArray` with the scenario key on a fresh
generator from `New32`, the first call of `Int32` returns 2907107027, not the
published value 1067595299. -/
theorem C3_scenario_counterexample :
    nthInt32 (SeedArray New32 scenarioKey) 0 = some 2907107027 ∧
    nthInt32 (SeedArray New32 scenarioKey) 0 ≠ some 1067595299 := by
  have h : nthInt32 (SeedArray New32 scenarioKey) 0 = some 2907107027 := by
    rw [nthInt32_SeedArray scenarioKey scenarioKey_length,
      (SeedArray_spec New32 scenarioKey New32_state_length scenarioKey_length).2.2.2.2.2.2,
      scenario_word1]
    decide
  refine ⟨h, ?_⟩
  rw [h]
  decide

/-- C3 (amended): after `SeedArray` on a fresh generator from `New32` with the
scenario key, which has 624 words that are all mixed in (the key index runs over
the whole key), the buffer has `0x80000000` at index 0 and 3466548840 at index
1, and the generator is left with `left = 1` and `initf = 1`. -/
theorem C3_scenario_amended :
    scenarioKey.length = N ∧
    (SeedArray New32 scenarioKey).state.length = N ∧
    (SeedArray New32 scenarioKey).state.getD 0 0 = 0x80000000 ∧
    (SeedArray New32 scenarioKey).state.getD 1 0 = 3466548840 ∧
    (SeedArray New32 scenarioKey).left = 1 ∧
    (SeedArray New32 scenarioKey).initf = 1 := by
  obtain ⟨h1, h2, _, _, h5, h6, h7⟩ :=
    SeedArray_spec New32 scenarioKey New32_state_length scenarioKey_length
  exact ⟨scenarioKey_length, h5, h6, by rw [h7, scenario_word1], h1, h2⟩

end Twister32

/-! ## Scalar seeding -/

theorem and_mask32_of_lt (x : Nat) (h : x < 4294967296) : x &&& 0xffffffff = x := by
  have e : u32 x = x := by
    unfold u32
    exact Nat.mod_eq_of_lt (by norm_num; exact h)
  rw [← e]
  exact and_mask32 x

theorem u32OfInt_lt (x : Int) : u32OfInt x < 4294967296 := by
  unfold u32OfInt
  have h1 : (0 : Int) ≤ x % 2 ^ 32 := Int.emod_nonneg _ (by norm_num)
  have h2 : x % 2 ^ 32 < 2 ^ 32 := Int.emod_lt_of_pos _ (by norm_num)
  omega

theorem getD_replicate_zero (n k : Nat) : (List.replicate n 0).getD k 0 = 0 := by
  rw [List.getD_eq_getElem?_getD, List.getElem?_replicate]
  split <;> rfl

namespace Twister64

theorem seedWord64_succ (s0 j : Nat) :
    seedWord s0 (j + 1)
      = (6364136223846793005 * (seedWord s0 j ^^^ (seedWord s0 j >>> 62)) + (j + 1)) % 2 ^ 64 :=
  rfl

end Twister64

namespace Twister32

theorem seedWord32_succ (s0 j : Nat) (hj : j + 1 < N) :
    seedWord s0 (j + 1)
      = (1812433253 * (seedWord s0 j ^^^ (seedWord s0 j >>> 30)) + (j + 1)) % 2 ^ 32 := by
  have hN : N = 624 := rfl
  have e : seedWord s0 (j + 1)
      = u32 (1812433253 * (seedWord s0 j ^^^ (seedWord s0 j >>> 30)) + u32 (j + 1))
        &&& 0xffffffff := rfl
  rw [e, and_mask32, u32_small (j + 1) (by omega)]
  rfl

end Twister32

/-- C11: on both engines, for every seed and every prior state, after `Seed`
word 0 of the buffer is `seed mod 2^w` and word `j`, `1 <= j < N`, is
`(C * (buffer[j-1] XOR (buffer[j-1] >> S)) + j) mod 2^w`, with
`(w, N, C, S) = (64, 312, 6364136223846793005, 62)` resp.
`(32, 624, 1812433253, 30)`; `Seed` does not regenerate but leaves `mti = 312`,
so that the next `Int64` takes the regeneration branch, resp. `left = 1` and
`initf = 1` (`next` and `nptr` untouched), so that the next decrement of `left`
gives 0 and `NextState` is called. -/
theorem C11_scalar_seeding (g64 : Twister64.MT19937) (g32 : Twister32.MT19937) (seed : Int)
    (h64 : g64.mt.length = Twister64.NN) (h32 : g32.state.length = Twister32.N) :
    ((Twister64.Seed g64 seed).mt.length = 312 ∧
      (Twister64.Seed g64 seed).mt.getD 0 0 = (seed % 2 ^ 64).toNat ∧
      (∀ j, 1 ≤ j → j < 312 → (Twister64.Seed g64 seed).mt.getD j 0
        = (6364136223846793005 * ((Twister64.Seed g64 seed).mt.getD (j - 1) 0
            ^^^ ((Twister64.Seed g64 seed).mt.getD (j - 1) 0 >>> 62)) + j) % 2 ^ 64) ∧
      (Twister64.Seed g64 seed).mti = 312 ∧
      Twister64.refill (Twister64.Seed g64 seed)
        = ⟨Twister64.generate (Twister64.Seed g64 seed).mt, 0⟩) ∧
    ((Twister32.Seed g32 seed).state.length = 624 ∧
      (Twister32.Seed g32 seed).state.getD 0 0 = (seed % 2 ^ 32).toNat ∧
      (∀ j, 1 ≤ j → j < 624 → (Twister32.Seed g32 seed).state.getD j 0
        = (1812433253 * ((Twister32.Seed g32 seed).state.getD (j - 1) 0
            ^^^ ((Twister32.Seed g32 seed).state.getD (j - 1) 0 >>> 30)) + j) % 2 ^ 32) ∧
      (Twister32.Seed g32 seed).left = 1 ∧ (Twister32.Seed g32 seed).initf = 1 ∧
      (Twister32.Seed g32 seed).next = g32.next ∧ (Twister32.Seed g32 seed).nptr = g32.nptr ∧
      Twister32.wrapInt ((Twister32.Seed g32 seed).left - 1) = 0) := by
  constructor
  · refine ⟨Twister64.Seed_mt_length g64 seed h64, ?_, ?_, Twister64.Seed_mti g64 seed, ?_⟩
    · rw [Twister64.Seed_mt_getD g64 seed h64 0 (by decide)]
      rfl
    · intro j h1 h2
      obtain ⟨k, rfl⟩ : ∃ k, j = k + 1 := ⟨j - 1, by omega⟩
      have hk : k < Twister64.NN := by
        have : Twister64.NN = 312 := rfl
        omega
      rw [Twister64.Seed_mt_getD g64 seed h64 (k + 1) h2, Nat.add_sub_cancel,
        Twister64.Seed_mt_getD g64 seed h64 k hk, Twister64.seedWord64_succ]
    · have hm := Twister64.Seed_mti g64 seed
      generalize Twister64.Seed g64 seed = sd at hm ⊢
      unfold Twister64.refill
      rw [if_pos (by rw [hm])]
      simp only
      rw [if_neg (by rw [hm]; exact Nat.ne_of_lt (Nat.lt_succ_self _))]
  · have hs := Twister32.Seed_eq g32 seed
    refine ⟨Twister32.Seed_state_length g32 seed h32, ?_, ?_, ?_, ?_, ?_, ?_, ?_⟩
    · rw [Twister32.Seed_state_getD g32 seed h32 0 (by decide)]
      show u32OfInt seed &&& 0xffffffff = _
      rw [and_mask32_of_lt _ (u32OfInt_lt seed)]
      rfl
    · intro j h1 h2
      obtain ⟨k, rfl⟩ : ∃ k, j = k + 1 := ⟨j - 1, by omega⟩
      have hN : Twister32.N = 624 := rfl
      rw [Twister32.Seed_state_getD g32 seed h32 (k + 1) (by omega), Nat.add_sub_cancel,
        Twister32.Seed_state_getD g32 seed h32 k (by omega),
        Twister32.seedWord32_succ _ k (by omega)]
    · rw [hs]
    · rw [hs]
    · rw [hs]
    · rw [hs]
    · have hl : (Twister32.Seed g32 seed).left = 1 := by rw [hs]
      rw [hl]
      decide

/-- Instance of C11 at the unseeded generators and seed 5489. -/
theorem C11_scalar_seeding_witness :
    Twister64.New.mt.length = Twister64.NN ∧ Twister32.New32.state.length = Twister32.N ∧
    (((Twister64.Seed Twister64.New (5489 : Int)).mt.length = 312 ∧
      (Twister64.Seed Twister64.New (5489 : Int)).mt.getD 0 0 = ((5489 : Int) % 2 ^ 64).toNat ∧
      (∀ j, 1 ≤ j → j < 312 → (Twister64.Seed Twister64.New (5489 : Int)).mt.getD j 0
        = (6364136223846793005 * ((Twister64.Seed Twister64.New (5489 : Int)).mt.getD (j - 1) 0
            ^^^ ((Twister64.Seed Twister64.New (5489 : Int)).mt.getD (j - 1) 0 >>> 62)) + j) % 2 ^
                64) ∧
      (Twister64.Seed Twister64.New (5489 : Int)).mti = 312 ∧
      Twister64.refill (Twister64.Seed Twister64.New (5489 : Int))
        = ⟨Twister64.generate (Twister64.Seed Twister64.New (5489 : Int)).mt, 0⟩) ∧
    ((Twister32.Seed Twister32.New32 (5489 : Int)).state.length = 624 ∧
      (Twister32.Seed Twister32.New32 (5489 : Int)).state.getD 0 0 = ((5489 : Int) % 2 ^ 32).toNat ∧
      (∀ j, 1 ≤ j → j < 624 → (Twister32.Seed Twister32.New32 (5489 : Int)).state.getD j 0
        = (1812433253 * ((Twister32.Seed Twister32.New32 (5489 : Int)).state.getD (j - 1) 0
            ^^^ ((Twister32.Seed Twister32.New32 (5489 : Int)).state.getD (j - 1) 0 >>> 30)) + j) %
                2 ^ 32) ∧
      (Twister32.Seed Twister32.New32 (5489 : Int)).left = 1 ∧ (Twister32.Seed Twister32.New32
          (5489 : Int)).initf = 1 ∧
      (Twister32.Seed Twister32.New32 (5489 : Int)).next = Twister32.New32.next ∧ (Twister32.Seed
          Twister32.New32 (5489 : Int)).nptr = Twister32.New32.nptr ∧
      Twister32.wrapInt ((Twister32.Seed Twister32.New32 (5489 : Int)).left - 1) = 0)) :=
  ⟨Twister64.New_mt_length, Twister32.New32_state_length,
    C11_scalar_seeding Twister64.New Twister32.New32 5489 Twister64.New_mt_length
      Twister32.New32_state_length⟩

/-- C19: on both engines, for every seed and every prior state, after `Seed`
word 2 of the buffer is 2 whenever word 1 is 0, so one of the two is non-zero
and the buffer is not all zero. -/
theorem C19_seed_not_all_zero (g64 : Twister64.MT19937) (g32 : Twister32.MT19937) (seed : Int)
    (h64 : g64.mt.length = Twister64.NN) (h32 : g32.state.length = Twister32.N) :
    ((Twister64.Seed g64 seed).mt.getD 1 0 = 0 → (Twister64.Seed g64 seed).mt.getD 2 0 = 2) ∧
    ((Twister64.Seed g64 seed).mt.getD 1 0 ≠ 0 ∨ (Twister64.Seed g64 seed).mt.getD 2 0 ≠ 0) ∧
    (Twister64.Seed g64 seed).mt ≠ List.replicate Twister64.NN 0 ∧
    ((Twister32.Seed g32 seed).state.getD 1 0 = 0 →
      (Twister32.Seed g32 seed).state.getD 2 0 = 2) ∧
    ((Twister32.Seed g32 seed).state.getD 1 0 ≠ 0 ∨
      (Twister32.Seed g32 seed).state.getD 2 0 ≠ 0) ∧
    (Twister32.Seed g32 seed).state ≠ List.replicate Twister32.N 0 := by
  have a1 : (Twister64.Seed g64 seed).mt.getD 1 0 = 0 →
      (Twister64.Seed g64 seed).mt.getD 2 0 = 2 := by
    intro h
    rw [Twister64.Seed_mt_getD g64 seed h64 1 (by decide)] at h
    rw [Twister64.Seed_mt_getD g64 seed h64 2 (by decide), Twister64.seedWord64_succ, h]
    decide
  have b1 : (Twister32.Seed g32 seed).state.getD 1 0 = 0 →
      (Twister32.Seed g32 seed).state.getD 2 0 = 2 := by
    intro h
    rw [Twister32.Seed_state_getD g32 seed h32 1 (by decide)] at h
    rw [Twister32.Seed_state_getD g32 seed h32 2 (by decide),
      Twister32.seedWord32_succ _ 1 (by decide), h]
    decide
  have a2 : (Twister64.Seed g64 seed).mt.getD 1 0 ≠ 0 ∨
      (Twister64.Seed g64 seed).mt.getD 2 0 ≠ 0 := by
    by_cases h : (Twister64.Seed g64 seed).mt.getD 1 0 = 0
    · right
      rw [a1 h]
      decide
    · exact Or.inl h
  have b2 : (Twister32.Seed g32 seed).state.getD 1 0 ≠ 0 ∨
      (Twister32.Seed g32 seed).state.getD 2 0 ≠ 0 := by
    by_cases h : (Twister32.Seed g32 seed).state.getD 1 0 = 0
    · right
      rw [b1 h]
      decide
    · exact Or.inl h
  have z64 := getD_replicate_zero Twister64.NN
  have z32 := getD_replicate_zero Twister32.N
  refine ⟨a1, a2, ?_, b1, b2, ?_⟩
  · intro h
    rw [h, z64, z64] at a2
    rcases a2 with h1 | h1 <;> exact h1 rfl
  · intro h
    rw [h, z32, z32] at b2
    rcases b2 with h1 | h1 <;> exact h1 rfl

/-- Instance of C19 at the unseeded generators and seed 5489. -/
theorem C19_seed_not_all_zero_witness :
    Twister64.New.mt.length = Twister64.NN ∧ Twister32.New32.state.length = Twister32.N ∧
    (((Twister64.Seed Twister64.New (5489 : Int)).mt.getD 1 0 = 0 → (Twister64.Seed Twister64.New
        (5489 : Int)).mt.getD 2 0 = 2) ∧
    ((Twister64.Seed Twister64.New (5489 : Int)).mt.getD 1 0 ≠ 0 ∨ (Twister64.Seed Twister64.New
        (5489 : Int)).mt.getD 2 0 ≠ 0) ∧
    (Twister64.Seed Twister64.New (5489 : Int)).mt ≠ List.replicate Twister64.NN 0 ∧
    ((Twister32.Seed Twister32.New32 (5489 : Int)).state.getD 1 0 = 0 →
      (Twister32.Seed Twister32.New32 (5489 : Int)).state.getD 2 0 = 2) ∧
    ((Twister32.Seed Twister32.New32 (5489 : Int)).state.getD 1 0 ≠ 0 ∨
      (Twister32.Seed Twister32.New32 (5489 : Int)).state.getD 2 0 ≠ 0) ∧
    (Twister32.Seed Twister32.New32 (5489 : Int)).state ≠ List.replicate Twister32.N 0) :=
  ⟨Twister64.New_mt_length, Twister32.New32_state_length,
    C19_seed_not_all_zero Twister64.New Twister32.New32 5489 Twister64.New_mt_length
      Twister32.New32_state_length⟩

/-! ## Extraction on the 32-bit engine and `Int63` -/

namespace Twister32

theorem run_stateAfter_none (seed : Int) (n : Nat) :
    ∀ k, k ≤ 623 → 624 ≤ k + n → run n (stateAfter seed k) = none := by
  induction n with
  | zero => intro k h1 h2; omega
  | succ n ih =>
    intro k h1 h2
    rw [run_succ]
    by_cases hk : k = 623
    · subst hk
      rw [Int32_stateAfter_last]
    · rw [Int32_stateAfter seed k (by omega)]
      simp only
      exact ih (k + 1) (by omega) (by omega)

/-- Every word that a call of `Int32` on `NewMersenne32(seed)` returns is the
tempering of a word of index `1 .. 623` of the seeded buffer. -/
theorem nthInt32_some (seed : Int) (n w : Nat)
    (h : nthInt32 (NewMersenne32 seed) n = some w) :
    n < 623 ∧ w = temper32 ((NewMersenne32 seed).state.getD (n + 1) 0) := by
  by_cases hn : n < 623
  · rw [nthInt32_NewMersenne32, if_pos hn] at h
    exact ⟨hn, (Option.some.inj h).symm⟩
  · exfalso
    by_cases h2 : n = 623
    · rw [nthInt32_NewMersenne32, if_neg hn, if_pos h2] at h
      exact Option.noConfusion h
    · unfold nthInt32 at h
      rw [← stateAfter_zero, run_stateAfter_none seed n 0 (by omega) (by omega)] at h
      exact Option.noConfusion h

theorem NextState_seeded (seed : Int) :
    (NextState (NewMersenne32 seed)).state = (NewMersenne32 seed).state ∧
    (NextState (NewMersenne32 seed)).next = (NewMersenne32 seed).state := by
  have hs := NewMersenne32_eq seed
  generalize (NewMersenne32 seed).state = B at hs
  rw [hs, NextState_eq, if_neg (by simp only; decide)]
  exact ⟨rfl, rfl⟩

/-- C17: on `NewMersenne32(seed)`, for `1 <= k <= 623`, call number `k` of `Int32`
returns the tempering of word `k` of the buffer `b` written by `Seed`, to which
no recurrence is applied: `NextState` leaves `state` equal to `b` and copies it
to `next`, and after the `k` calls both arrays still hold `b`; word 0 of `b` is
never output, every word returned has an index in `1 .. 623`. -/
theorem C17_int32_reads_seed_buffer (seed : Int) (k : Nat) (h1 : 1 ≤ k) (h2 : k ≤ 623) :
    nthInt32 (NewMersenne32 seed) (k - 1)
      = some (temper32 ((NewMersenne32 seed).state.getD k 0)) ∧
    (NextState (NewMersenne32 seed)).state = (NewMersenne32 seed).state ∧
    (NextState (NewMersenne32 seed)).next = (NewMersenne32 seed).state ∧
    run k (NewMersenne32 seed) = some (stateAfter seed k) ∧
    (stateAfter seed k).state = (NewMersenne32 seed).state ∧
    (stateAfter seed k).next = (NewMersenne32 seed).state ∧
    (∀ n w, nthInt32 (NewMersenne32 seed) n = some w →
      n < 623 ∧ w = temper32 ((NewMersenne32 seed).state.getD (n + 1) 0)) := by
  refine ⟨?_, (NextState_seeded seed).1, (NextState_seeded seed).2, ?_, ?_, ?_,
    nthInt32_some seed⟩
  · rw [nthInt32_NewMersenne32, if_pos (by omega)]
    have e : k - 1 + 1 = k := by omega
    rw [e]
  · rw [← stateAfter_zero, run_stateAfter seed k 0 (by omega), Nat.zero_add]
  · rw [stateAfter_pos seed k h1]
  · rw [stateAfter_pos seed k h1]

/-- Instance of C17 at seed 5489 and the second call. -/
theorem C17_int32_reads_seed_buffer_witness :
    1 ≤ 2 ∧ 2 ≤ 623 ∧
    (nthInt32 (NewMersenne32 (5489 : Int)) (2 - 1)
      = some (temper32 ((NewMersenne32 (5489 : Int)).state.getD 2 0)) ∧
    (NextState (NewMersenne32 (5489 : Int))).state = (NewMersenne32 (5489 : Int)).state ∧
    (NextState (NewMersenne32 (5489 : Int))).next = (NewMersenne32 (5489 : Int)).state ∧
    run 2 (NewMersenne32 (5489 : Int)) = some (stateAfter (5489 : Int) 2) ∧
    (stateAfter (5489 : Int) 2).state = (NewMersenne32 (5489 : Int)).state ∧
    (stateAfter (5489 : Int) 2).next = (NewMersenne32 (5489 : Int)).state ∧
    (∀ n w, nthInt32 (NewMersenne32 (5489 : Int)) n = some w →
      n < 623 ∧ w = temper32 ((NewMersenne32 (5489 : Int)).state.getD (n + 1) 0))) :=
  ⟨by decide, by decide, C17_int32_reads_seed_buffer 5489 2 (by decide) (by decide)⟩

end Twister32

namespace Twister64

theorem shl_shr_one (w : Nat) : u64 (w <<< 1) >>> 1 = w &&& (2 ^ 63 - 1) := by
  rw [Nat.and_pow_two_sub_one_eq_mod, Nat.shiftRight_eq_div_pow, Nat.shiftLeft_eq]
  unfold u64
  omega

/-- C14: `Int63` returns the word `w` that `Int64` returns from the same state
with its sign bit masked off, `w AND (2^63 - 1)`, a value in `[0, 2^63 - 1]`, and
leaves the state that `Int64` leaves. -/
theorem C14_int63 (m : MT19937) :
    (Int63 m).1 = (((Int64 m).1 &&& (2 ^ 63 - 1) : Nat) : Int) ∧
    0 ≤ (Int63 m).1 ∧ (Int63 m).1 ≤ 2 ^ 63 - 1 ∧
    (Int63 m).2 = (Int64 m).2 := by
  have e : (Int63 m).1 = (((Int64 m).1 &&& (2 ^ 63 - 1) : Nat) : Int) := by
    unfold Int63
    simp only
    generalize (Int64 m).1 = w
    rw [shl_shr_one]
    have hlt : w &&& (2 ^ 63 - 1) < 2 ^ 63 := by
      rw [Nat.and_pow_two_sub_one_eq_mod]
      exact Nat.mod_lt _ (by norm_num)
    unfold i64OfU64
    generalize w &&& (2 ^ 63 - 1) = v at hlt ⊢
    have e1 : v % 2 ^ 64 = v := Nat.mod_eq_of_lt (by omega)
    rw [e1, if_pos hlt]
  refine ⟨e, ?_, ?_, rfl⟩
  · rw [e]
    exact Int.natCast_nonneg _
  · rw [e]
    have hlt : (Int64 m).1 &&& (2 ^ 63 - 1) < 2 ^ 63 := by
      rw [Nat.and_pow_two_sub_one_eq_mod]
      exact Nat.mod_lt _ (by norm_num)
    generalize (Int64 m).1 &&& (2 ^ 63 - 1) = v at hlt ⊢
    omega

end Twister64

/-! ## The `float64` rounding and the values of `Real1`, `Real2`, `Real3` -/

theorem roundEven_of_near (x : ℚ) (z : ℤ) (h : |x - z| < 1 / 2) : roundEven x = z := by
  rw [abs_lt] at h
  by_cases hx : (z : ℚ) ≤ x
  · have hf : ⌊x⌋ = z := Int.floor_eq_iff.mpr ⟨hx, by linarith⟩
    unfold roundEven
    rw [hf, if_pos (by linarith)]
  · have hf : ⌊x⌋ = z - 1 := Int.floor_eq_iff.mpr ⟨by push_cast; linarith, by push_cast; linarith⟩
    unfold roundEven
    rw [hf, if_neg (by push_cast; linarith), if_pos (by push_cast; linarith)]
    omega

theorem roundEven_intCast (z : ℤ) : roundEven (z : ℚ) = z :=
  roundEven_of_near _ z (by simp)

theorem roundEven_cases (x : ℚ) : roundEven x = ⌊x⌋ ∨ roundEven x = ⌊x⌋ + 1 := by
  unfold roundEven
  split_ifs <;> simp

theorem roundEven_abs_sub_le (x : ℚ) : |(roundEven x : ℚ) - x| ≤ 1 / 2 := by
  have h1 := Int.floor_le x
  have h2 := Int.lt_floor_add_one x
  unfold roundEven
  rw [abs_le]
  split_ifs with a b c
  · constructor <;> linarith
  · push_cast
    constructor <;> linarith
  · have e : x - ⌊x⌋ = 1 / 2 := le_antisymm (not_lt.mp b) (not_lt.mp a)
    constructor <;> linarith
  · have e : x - ⌊x⌋ = 1 / 2 := le_antisymm (not_lt.mp b) (not_lt.mp a)
    push_cast
    constructor <;> linarith

theorem roundEven_nonneg (x : ℚ) (h : 0 ≤ x) : 0 ≤ roundEven x := by
  have hf : 0 ≤ ⌊x⌋ := Int.floor_nonneg.mpr h
  rcases roundEven_cases x with e | e <;> omega

theorem roundEven_le (x : ℚ) (n : ℤ) (h : x < n + 1 / 2) : roundEven x ≤ n := by
  have h1 := Int.floor_le x
  have hfn : ⌊x⌋ ≤ n := by
    have : (⌊x⌋ : ℚ) < n + 1 := by linarith
    have : ⌊x⌋ < n + 1 := by exact_mod_cast this
    omega
  unfold roundEven
  split_ifs with a b c
  · exact hfn
  · have : (⌊x⌋ : ℚ) < n := by linarith
    have : ⌊x⌋ < n := by exact_mod_cast this
    omega
  · exact hfn
  · have e : x - ⌊x⌋ = 1 / 2 := le_antisymm (not_lt.mp b) (not_lt.mp a)
    have : (⌊x⌋ : ℚ) < n := by linarith
    have : ⌊x⌋ < n := by exact_mod_cast this
    omega

theorem f64_zero : f64 0 = 0 := by
  unfold f64
  rw [if_pos rfl]

/-- The binade exponent used by `f64` for a positive rational. -/
theorem f64_pos_eq (x : ℚ) (hx : 0 < x) :
    f64 x = (roundEven (x / 2 ^ (max (Int.log 2 x) (-1022) - 52)) : ℚ)
      * 2 ^ (max (Int.log 2 x) (-1022) - 52) := by
  unfold f64
  rw [if_neg (ne_of_gt hx), abs_of_pos hx]

theorem log_two_eq (x : ℚ) (e : ℤ) (h1 : 2 ^ e ≤ x) (h2 : x < 2 ^ (e + 1)) :
    Int.log 2 x = e := by
  have hx : 0 < x := lt_of_lt_of_le (zpow_pos (by norm_num) e) h1
  have a : e ≤ Int.log 2 x := (Int.zpow_le_iff_le_log (by norm_num) hx).mp (by exact_mod_cast h1)
  have b : Int.log 2 x < e + 1 :=
    (Int.lt_zpow_iff_log_lt (by norm_num) hx).mp (by exact_mod_cast h2)
  omega

theorem f64_of_binade (x : ℚ) (e : ℤ) (he : -1022 ≤ e) (h1 : 2 ^ e ≤ x) (h2 : x < 2 ^ (e + 1)) :
    f64 x = (roundEven (x / 2 ^ (e - 52)) : ℚ) * 2 ^ (e - 52) := by
  have hx : 0 < x := lt_of_lt_of_le (zpow_pos (by norm_num) e) h1
  rw [f64_pos_eq x hx, log_two_eq x e h1 h2, max_eq_left he]

/-- Evaluation of `f64` at a rational of known binade that is no tie. -/
theorem f64_eval (x : ℚ) (e z : ℤ) (he : -1022 ≤ e) (h1 : 2 ^ e ≤ x) (h2 : x < 2 ^ (e + 1))
    (hz : |x / 2 ^ (e - 52) - z| < 1 / 2) : f64 x = z * 2 ^ (e - 52) := by
  rw [f64_of_binade x e he h1 h2, roundEven_of_near _ z hz]

theorem f64_nonneg (x : ℚ) (h : 0 ≤ x) : 0 ≤ f64 x := by
  rcases eq_or_lt_of_le h with h0 | hx
  · rw [← h0, f64_zero]
  · rw [f64_pos_eq x hx]
    have hu : (0 : ℚ) < 2 ^ (max (Int.log 2 x) (-1022) - 52) := zpow_pos (by norm_num) _
    have hr : 0 ≤ roundEven (x / 2 ^ (max (Int.log 2 x) (-1022) - 52)) :=
      roundEven_nonneg _ (div_nonneg h (le_of_lt hu))
    have hr2 : (0 : ℚ) ≤ (roundEven (x / 2 ^ (max (Int.log 2 x) (-1022) - 52)) : ℚ) := by
      exact_mod_cast hr
    exact mul_nonneg hr2 (le_of_lt hu)

theorem log_two_lt (x : ℚ) (hx : 0 < x) (n : ℤ) (h : x < 2 ^ n) : Int.log 2 x < n :=
  (Int.lt_zpow_iff_log_lt (by norm_num) hx).mp (by exact_mod_cast h)

theorem lt_two_zpow_log (x : ℚ) : x < 2 ^ (Int.log 2 x + 1) := by
  have := Int.lt_zpow_succ_log_self (b := 2) (by norm_num) x
  exact_mod_cast this

/-- A rational below `1 + 2^-53` rounds to a `float64` that is at most 1. -/
theorem f64_le_one (x : ℚ) (h0 : 0 ≤ x) (h1 : x < 1 + 1 / 2 ^ 53) : f64 x ≤ 1 := by
  rcases eq_or_lt_of_le h0 with hz | hx
  · rw [← hz, f64_zero]
    norm_num
  rw [f64_pos_eq x hx]
  have hL : Int.log 2 x < 1 := log_two_lt x hx 1 (by norm_num; linarith)
  have hlt := lt_two_zpow_log x
  generalize Int.log 2 x = L at hL hlt
  have hle : L ≤ max L (-1022) := le_max_left _ _
  have hm : max L (-1022) ≤ 0 := max_le (by omega) (by norm_num)
  generalize max L (-1022) = e at hle hm
  have hu : (0 : ℚ) < 2 ^ (e - 52) := zpow_pos (by norm_num) _
  have hxe : x < 2 ^ (e + 1) :=
    lt_of_lt_of_le hlt (zpow_le_zpow_right₀ (by norm_num) (by omega))
  by_cases he : e = 0
  · subst he
    have hq : x / 2 ^ ((0 : ℤ) - 52) < ((2 ^ 52 : ℤ) : ℚ) + 1 / 2 := by
      rw [div_lt_iff₀ hu]
      norm_num
      norm_num at h1
      linarith
    have hr := roundEven_le _ _ hq
    have hr2 : (roundEven (x / 2 ^ ((0 : ℤ) - 52)) : ℚ) ≤ ((2 ^ 52 : ℤ) : ℚ) := by
      exact_mod_cast hr
    calc (roundEven (x / 2 ^ ((0 : ℤ) - 52)) : ℚ) * 2 ^ ((0 : ℤ) - 52)
        ≤ ((2 ^ 52 : ℤ) : ℚ) * 2 ^ ((0 : ℤ) - 52) := mul_le_mul_of_nonneg_right hr2 (le_of_lt hu)
      _ = 1 := by norm_num
  · have hq : x / 2 ^ (e - 52) < ((2 ^ 53 : ℤ) : ℚ) + 1 / 2 := by
      rw [div_lt_iff₀ hu]
      have e1 : (2 : ℚ) ^ (e + 1) = 2 ^ 53 * 2 ^ (e - 52) := by
        rw [show e + 1 = 53 + (e - 52) by ring, zpow_add₀ (by norm_num)]
        norm_num
      rw [e1] at hxe
      push_cast
      nlinarith
    have hr := roundEven_le _ _ hq
    have hr2 : (roundEven (x / 2 ^ (e - 52)) : ℚ) ≤ ((2 ^ 53 : ℤ) : ℚ) := by
      exact_mod_cast hr
    have e2 : ((2 ^ 53 : ℤ) : ℚ) * 2 ^ (e - 52) = 2 ^ (e + 1) := by
      rw [show e + 1 = 53 + (e - 52) by ring, zpow_add₀ (by norm_num)]
      norm_num
    calc (roundEven (x / 2 ^ (e - 52)) : ℚ) * 2 ^ (e - 52)
        ≤ ((2 ^ 53 : ℤ) : ℚ) * 2 ^ (e - 52) := mul_le_mul_of_nonneg_right hr2 (le_of_lt hu)
      _ = 2 ^ (e + 1) := e2
      _ ≤ 2 ^ (0 : ℤ) := zpow_le_zpow_right₀ (by norm_num) (by omega)
      _ = 1 := by norm_num

/-- The rounding error of `f64` below 2 is at most `2^-53`. -/
theorem f64_abs_sub_le (x : ℚ) (h0 : 0 ≤ x) (h2 : x < 2) : |f64 x - x| ≤ 1 / 2 ^ 53 := by
  rcases eq_or_lt_of_le h0 with hz | hx
  · rw [← hz, f64_zero]
    norm_num
  rw [f64_pos_eq x hx]
  have hL : Int.log 2 x < 1 := log_two_lt x hx 1 (by norm_num; linarith)
  generalize Int.log 2 x = L at hL
  have hm : max L (-1022) ≤ 0 := max_le (by omega) (by norm_num)
  generalize max L (-1022) = e at hm
  have hu : (0 : ℚ) < 2 ^ (e - 52) := zpow_pos (by norm_num) _
  have hu2 : (2 : ℚ) ^ (e - 52) ≤ 2 ^ (-52 : ℤ) := zpow_le_zpow_right₀ (by norm_num) (by omega)
  have hr := roundEven_abs_sub_le (x / 2 ^ (e - 52))
  have e1 : (roundEven (x / 2 ^ (e - 52)) : ℚ) * 2 ^ (e - 52) - x
      = ((roundEven (x / 2 ^ (e - 52)) : ℚ) - x / 2 ^ (e - 52)) * 2 ^ (e - 52) := by
    field_simp
  rw [e1, abs_mul, abs_of_pos hu]
  calc |(roundEven (x / 2 ^ (e - 52)) : ℚ) - x / 2 ^ (e - 52)| * 2 ^ (e - 52)
      ≤ 1 / 2 * 2 ^ (-52 : ℤ) := mul_le_mul hr hu2 (le_of_lt hu) (by norm_num)
    _ = 1 / 2 ^ 53 := by norm_num

/-- A rational `n * 2^k` with `n < 2^53` and `k >= -1074` is a `float64`. -/
theorem f64_dyadic (n : ℕ) (k : ℤ) (hn : n < 2 ^ 53) (hk : -1074 ≤ k) :
    f64 ((n : ℚ) * 2 ^ k) = (n : ℚ) * 2 ^ k := by
  rcases Nat.eq_zero_or_pos n with h0 | hpos
  · subst h0
    simp [f64_zero]
  have hk0 : (0 : ℚ) < 2 ^ k := zpow_pos (by norm_num) _
  have hx : (0 : ℚ) < (n : ℚ) * 2 ^ k := mul_pos (by exact_mod_cast hpos) hk0
  rw [f64_pos_eq _ hx]
  have hlt : (n : ℚ) * 2 ^ k < 2 ^ (53 + k) := by
    rw [zpow_add₀ (by norm_num)]
    have : (n : ℚ) < 2 ^ (53 : ℤ) := by
      norm_num
      exact_mod_cast hn
    exact mul_lt_mul_of_pos_right this hk0
  have hL := log_two_lt _ hx _ hlt
  generalize Int.log 2 ((n : ℚ) * 2 ^ k) = L at hL
  have hm : max L (-1022) - 52 ≤ k := by
    have : max L (-1022) ≤ k + 52 := max_le (by omega) (by omega)
    omega
  generalize max L (-1022) - 52 = s at hm
  obtain ⟨d, hd⟩ : ∃ d : ℕ, k = s + d := ⟨(k - s).toNat, by omega⟩
  have hs0 : (0 : ℚ) < 2 ^ s := zpow_pos (by norm_num) _
  have e1 : (n : ℚ) * 2 ^ k / 2 ^ s = (((n * 2 ^ d : ℕ) : ℤ) : ℚ) := by
    rw [hd, zpow_add₀ (by norm_num), zpow_natCast]
    push_cast
    field_simp
    ring
  rw [e1, roundEven_intCast, hd, zpow_add₀ (by norm_num), zpow_natCast]
  push_cast
  ring

theorem f64_natCast (n : ℕ) (hn : n < 2 ^ 53) : f64 (n : ℚ) = n := by
  have h := f64_dyadic n 0 hn (by norm_num)
  simpa using h

/-- The constant `1.0 / 4294967295.0` as a `float64`. -/
theorem f64_inv_4294967295 : f64 (1 / 4294967295) = 4294967297 / 2 ^ 64 := by
  rw [f64_eval (1 / 4294967295) (-32) 4503599628419072 (by norm_num) (by norm_num) (by norm_num)
    (by rw [abs_lt]; constructor <;> norm_num)]
  norm_num

/-- The constant `1.0 / 9007199254740991.0` as a `float64`. -/
theorem f64_inv_9007199254740991 :
    f64 (1 / 9007199254740991) = 4503599627370497 / 2 ^ 105 := by
  rw [f64_eval (1 / 9007199254740991) (-53) 4503599627370497 (by norm_num) (by norm_num)
    (by norm_num) (by rw [abs_lt]; constructor <;> norm_num)]
  norm_num

/-- The constant `1.0 / 4294967296.0` is a `float64`. -/
theorem f64_inv_4294967296 : f64 (1 / 4294967296) = 1 / 2 ^ 32 := by
  have h := f64_dyadic 1 (-32) (by norm_num) (by norm_num)
  norm_num at h ⊢
  exact h

/-- The constant `1.0 / 9007199254740992.0` is a `float64`. -/
theorem f64_inv_9007199254740992 : f64 (1 / 9007199254740992) = 1 / 2 ^ 53 := by
  have h := f64_dyadic 1 (-53) (by norm_num) (by norm_num)
  norm_num at h ⊢
  exact h

/-- The constant `1.0 / 4503599627370496.0` is a `float64`. -/
theorem f64_inv_4503599627370496 : f64 (1 / 4503599627370496) = 1 / 2 ^ 52 := by
  have h := f64_dyadic 1 (-52) (by norm_num) (by norm_num)
  norm_num at h ⊢
  exact h

/-- The constant `0.5` is a `float64`. -/
theorem f64_half : f64 (1 / 2) = 1 / 2 := by
  have h := f64_dyadic 1 (-1) (by norm_num) (by norm_num)
  norm_num at h ⊢
  exact h

namespace Twister32

/-- The value of `Real1` at a 32-bit word: the rounded product of the word and
of `(2^32 + 1) / 2^64`, the `float64` of the constant. -/
theorem real1Val32_eq (w : Nat) (h : w < 4294967296) :
    real1Val w = f64 ((w : ℚ) * (4294967297 / 2 ^ 64)) := by
  unfold real1Val
  rw [f64_natCast w (by omega), f64_inv_4294967295]

theorem real1Val32_bounds (w : Nat) (h : w < 4294967296) :
    0 ≤ real1Val w ∧ real1Val w ≤ 1 ∧ |real1Val w - (w : ℚ) / (2 ^ 32 - 1)| ≤ 1 / 2 ^ 52 := by
  have h0 : (0 : ℚ) ≤ (w : ℚ) := Nat.cast_nonneg w
  have h1 : (w : ℚ) ≤ 4294967295 := by
    have : w ≤ 4294967295 := by omega
    exact_mod_cast this
  rw [real1Val32_eq w h]
  have hx0 : (0 : ℚ) ≤ (w : ℚ) * (4294967297 / 2 ^ 64) := by positivity
  have hx1 : (w : ℚ) * (4294967297 / 2 ^ 64) < 1 := by
    norm_num
    linarith
  refine ⟨f64_nonneg _ hx0, f64_le_one _ hx0 (by linarith [show (0 : ℚ) < 1 / 2 ^ 53 by norm_num]),
    ?_⟩
  have hr := f64_abs_sub_le _ hx0 (by linarith)
  have hc : |(w : ℚ) * (4294967297 / 2 ^ 64) - (w : ℚ) / (2 ^ 32 - 1)| ≤ 1 / 2 ^ 53 := by
    have e : (w : ℚ) * (4294967297 / 2 ^ 64) - (w : ℚ) / (2 ^ 32 - 1)
        = -((w : ℚ) / (2 ^ 64 * (2 ^ 32 - 1))) := by
      norm_num
      ring
    rw [e, abs_neg, abs_of_nonneg (by positivity)]
    rw [div_le_iff₀ (by norm_num)]
    norm_num
    linarith
  calc |f64 ((w : ℚ) * (4294967297 / 2 ^ 64)) - (w : ℚ) / (2 ^ 32 - 1)|
      = |(f64 ((w : ℚ) * (4294967297 / 2 ^ 64)) - (w : ℚ) * (4294967297 / 2 ^ 64))
          + ((w : ℚ) * (4294967297 / 2 ^ 64) - (w : ℚ) / (2 ^ 32 - 1))| := by ring_nf
    _ ≤ |f64 ((w : ℚ) * (4294967297 / 2 ^ 64)) - (w : ℚ) * (4294967297 / 2 ^ 64)|
          + |(w : ℚ) * (4294967297 / 2 ^ 64) - (w : ℚ) / (2 ^ 32 - 1)| := abs_add _ _
    _ ≤ 1 / 2 ^ 53 + 1 / 2 ^ 53 := add_le_add hr hc
    _ = 1 / 2 ^ 52 := by norm_num

theorem real1Val32_zero : real1Val 0 = 0 := by
  rw [real1Val32_eq 0 (by norm_num)]
  simp [f64_zero]

theorem real1Val32_ones : real1Val 4294967295 = 1 := by
  rw [real1Val32_eq 4294967295 (by norm_num)]
  rw [f64_eval _ (-1) 9007199254740992 (by norm_num) (by norm_num) (by norm_num)
    (by rw [abs_lt]; constructor <;> norm_num)]
  norm_num

/-- The value of `Real1` at the first word of `NewMersenne32(5489)`. -/
theorem real1Val_1228475205 : real1Val 1228475205 = 5152598467432003 / 2 ^ 54 := by
  rw [real1Val32_eq 1228475205 (by norm_num)]
  rw [f64_eval _ (-2) 5152598467432003 (by norm_num) (by norm_num) (by norm_num)
    (by rw [abs_lt]; constructor <;> norm_num)]
  norm_num

/-- Every `float64` operation of `Real2` is exact at a 32-bit word. -/
theorem real2Val32_eq (w : Nat) (h : w < 4294967296) : real2Val w = (w : ℚ) / 2 ^ 32 := by
  unfold real2Val
  rw [f64_natCast w (by omega), f64_inv_4294967296]
  have e : (w : ℚ) * (1 / 2 ^ 32) = (w : ℚ) * 2 ^ (-32 : ℤ) := by norm_num
  rw [e, f64_dyadic w (-32) (by omega) (by norm_num)]
  norm_num
  ring

/-- Every `float64` operation of `Real3` is exact at a 32-bit word. -/
theorem real3Val32_eq (w : Nat) (h : w < 4294967296) :
    real3Val w = ((w : ℚ) + 1 / 2) / 2 ^ 32 := by
  unfold real3Val
  rw [f64_natCast w (by omega), f64_half, f64_inv_4294967296]
  have e1 : (w : ℚ) + 1 / 2 = ((2 * w + 1 : ℕ) : ℚ) * 2 ^ (-1 : ℤ) := by
    push_cast
    norm_num
    ring
  have e2 : ((2 * w + 1 : ℕ) : ℚ) * 2 ^ (-1 : ℤ) * (1 / 2 ^ 32)
      = ((2 * w + 1 : ℕ) : ℚ) * 2 ^ (-33 : ℤ) := by
    norm_num
    ring
  rw [e1, f64_dyadic (2 * w + 1) (-1) (by omega) (by norm_num), e2,
    f64_dyadic (2 * w + 1) (-33) (by omega) (by norm_num)]
  push_cast
  norm_num
  ring

end Twister32

namespace Twister64

theorem shr11_lt_pow (w : Nat) (h : w < 18446744073709551616) : w >>> 11 < 9007199254740992 := by
  rw [Nat.shiftRight_eq_div_pow]
  omega

theorem shr12_lt_pow (w : Nat) (h : w < 18446744073709551616) : w >>> 12 < 4503599627370496 := by
  rw [Nat.shiftRight_eq_div_pow]
  omega

/-- The value of `Real1` at a 64-bit word: the rounded product of the shifted
word and of `(2^52 + 1) / 2^105`, the `float64` of the constant. -/
theorem real1Val64_eq (w : Nat) (h : w < 18446744073709551616) :
    real1Val w = f64 (((w >>> 11 : Nat) : ℚ) * (4503599627370497 / 2 ^ 105)) := by
  unfold real1Val
  rw [f64_natCast (w >>> 11) (by have := shr11_lt_pow w h; omega), f64_inv_9007199254740991]

theorem real1Val64_bounds (w : Nat) (h : w < 18446744073709551616) :
    0 ≤ real1Val w ∧ real1Val w ≤ 1 ∧
    |real1Val w - ((w >>> 11 : Nat) : ℚ) / (2 ^ 53 - 1)| ≤ 1 / 2 ^ 52 := by
  have hv := shr11_lt_pow w h
  rw [real1Val64_eq w h]
  generalize w >>> 11 = v at hv
  have h0 : (0 : ℚ) ≤ (v : ℚ) := Nat.cast_nonneg v
  have h1 : (v : ℚ) ≤ 9007199254740991 := by
    have : v ≤ 9007199254740991 := by omega
    exact_mod_cast this
  have hx0 : (0 : ℚ) ≤ (v : ℚ) * (4503599627370497 / 2 ^ 105) := by positivity
  have hx1 : (v : ℚ) * (4503599627370497 / 2 ^ 105) < 1 + 1 / 2 ^ 53 := by
    norm_num
    linarith
  refine ⟨f64_nonneg _ hx0, f64_le_one _ hx0 hx1, ?_⟩
  have hr := f64_abs_sub_le _ hx0 (by linarith [show (1 : ℚ) / 2 ^ 53 < 1 by norm_num])
  have hc : |(v : ℚ) * (4503599627370497 / 2 ^ 105) - (v : ℚ) / (2 ^ 53 - 1)| ≤ 1 / 2 ^ 53 := by
    have e : (v : ℚ) * (4503599627370497 / 2 ^ 105) - (v : ℚ) / (2 ^ 53 - 1)
        = (v : ℚ) * (4503599627370495 / (2 ^ 105 * (2 ^ 53 - 1))) := by
      norm_num
      ring
    rw [e, abs_of_nonneg (by positivity)]
    norm_num
    linarith
  calc |f64 ((v : ℚ) * (4503599627370497 / 2 ^ 105)) - (v : ℚ) / (2 ^ 53 - 1)|
      = |(f64 ((v : ℚ) * (4503599627370497 / 2 ^ 105)) - (v : ℚ) * (4503599627370497 / 2 ^ 105))
          + ((v : ℚ) * (4503599627370497 / 2 ^ 105) - (v : ℚ) / (2 ^ 53 - 1))| := by ring_nf
    _ ≤ |f64 ((v : ℚ) * (4503599627370497 / 2 ^ 105)) - (v : ℚ) * (4503599627370497 / 2 ^ 105)|
          + |(v : ℚ) * (4503599627370497 / 2 ^ 105) - (v : ℚ) / (2 ^ 53 - 1)| := abs_add _ _
    _ ≤ 1 / 2 ^ 53 + 1 / 2 ^ 53 := add_le_add hr hc
    _ = 1 / 2 ^ 52 := by norm_num

theorem real1Val64_zero : real1Val 0 = 0 := by
  rw [real1Val64_eq 0 (by norm_num)]
  simp [f64_zero]

theorem real1Val64_ones : real1Val 18446744073709551615 = 1 := by
  rw [real1Val64_eq 18446744073709551615 (by norm_num)]
  have e : (18446744073709551615 : Nat) >>> 11 = 9007199254740991 := by decide
  rw [e]
  rw [f64_eval _ 0 4503599627370496 (by norm_num) (by norm_num) (by norm_num)
    (by rw [abs_lt]; constructor <;> norm_num)]
  norm_num

/-- Every `float64` operation of `Real2` is exact at a 64-bit word. -/
theorem real2Val64_eq (w : Nat) (h : w < 18446744073709551616) :
    real2Val w = ((w >>> 11 : Nat) : ℚ) / 2 ^ 53 := by
  have hv := shr11_lt_pow w h
  unfold real2Val
  generalize w >>> 11 = v at hv
  rw [f64_natCast v (by omega), f64_inv_9007199254740992]
  have e : (v : ℚ) * (1 / 2 ^ 53) = (v : ℚ) * 2 ^ (-53 : ℤ) := by norm_num
  rw [e, f64_dyadic v (-53) (by omega) (by norm_num)]
  norm_num
  ring

/-- Every `float64` operation of `Real3` is exact at a 64-bit word. -/
theorem real3Val64_eq (w : Nat) (h : w < 18446744073709551616) :
    real3Val w = (((w >>> 12 : Nat) : ℚ) + 1 / 2) / 2 ^ 52 := by
  have hv := shr12_lt_pow w h
  unfold real3Val
  generalize w >>> 12 = v at hv
  rw [f64_natCast v (by omega), f64_half, f64_inv_4503599627370496]
  have e1 : (v : ℚ) + 1 / 2 = ((2 * v + 1 : ℕ) : ℚ) * 2 ^ (-1 : ℤ) := by
    push_cast
    norm_num
    ring
  have e2 : ((2 * v + 1 : ℕ) : ℚ) * 2 ^ (-1 : ℤ) * (1 / 2 ^ 52)
      = ((2 * v + 1 : ℕ) : ℚ) * 2 ^ (-53 : ℤ) := by
    norm_num
    ring
  rw [e1, f64_dyadic (2 * v + 1) (-1) (by omega) (by norm_num), e2,
    f64_dyadic (2 * v + 1) (-53) (by omega) (by norm_num)]
  push_cast
  norm_num
  ring

end Twister64

/-! ## The duplicated extraction code of the 32-bit engine -/

namespace Twister32

/-- The copy of the extraction and tempering in `Int31` computes what `Int32`
computes. -/
theorem Int31_eq (m : MT19937) :
    Int31 m = (Int32 m).map (fun r => (i32OfU32 (r.1 >>> 1), r.2)) := by
  unfold Int31 Int32
  simp only
  split <;> split <;> rfl

theorem Real1_eq (m : MT19937) :
    Real1 m = (Int32 m).map (fun r => (real1Val r.1, r.2)) := by
  unfold Real1 Int32
  simp only
  split <;> split <;> rfl

theorem Real2_eq (m : MT19937) :
    Real2 m = (Int32 m).map (fun r => (real2Val r.1, r.2)) := by
  unfold Real2 Int32
  simp only
  split <;> split <;> rfl

theorem Real3_eq (m : MT19937) :
    Real3 m = (Int32 m).map (fun r => (real3Val r.1, r.2)) := by
  unfold Real3 Int32
  simp only
  split <;> split <;> rfl

theorem i32_shr_one (w : Nat) (hw : w < 4294967296) :
    i32OfU32 (w >>> 1) = ((w >>> 1 : Nat) : Int) ∧ (w >>> 1) ≤ 2147483647 := by
  have h : w >>> 1 ≤ 2147483647 := by
    rw [Nat.shiftRight_eq_div_pow]
    omega
  refine ⟨?_, h⟩
  unfold i32OfU32
  generalize w >>> 1 = v at h ⊢
  have e1 : v % 2 ^ 32 = v := Nat.mod_eq_of_lt (by omega)
  rw [e1, if_pos (by omega)]

/-- C15 (counterexample): on `NewMersenne32(5489)` the word that `Int32` returns
is 1228475205, which is its own value with the sign bit masked off, while `Int31`
returns 614237602, the word shifted right by one. -/
theorem C15_int31_counterexample :
    nthInt32 (NewMersenne32 5489) 0 = some 1228475205 ∧
    (1228475205 &&& 0x7fffffff : Nat) = 1228475205 ∧
    (Int31 (NewMersenne32 5489)).map Prod.fst = some 614237602 ∧
    (Int31 (NewMersenne32 5489)).map Prod.fst
      ≠ some (((1228475205 &&& 0x7fffffff : Nat) : Int)) := by
  have h := Int32_stateAfter 5489 0 (by decide)
  rw [stateAfter_zero, NewMersenne32_getD 5489 (0 + 1) (by decide), u32OfInt_5489] at h
  have hw : temper32 (seedWord 5489 (0 + 1)) = 1228475205 := by decide
  rw [hw] at h
  have h31 : (Int31 (NewMersenne32 5489)).map Prod.fst = some 614237602 := by
    rw [Int31_eq, h]
    decide
  refine ⟨?_, by decide, h31, ?_⟩
  · unfold nthInt32 run
    simp only
    rw [h]
    rfl
  · rw [h31]
    decide

/-- C15 (amended): whenever `Int32` succeeds from a state and returns the word
`w`, `Int31` from the same state returns `w >> 1`, the word shifted right by one
bit, a value in `[0, 0x7fffffff]`. -/
theorem C15_int31_shifts (m m1 : MT19937) (w : Nat) (h : Int32 m = some (w, m1))
    (hw : w < 4294967296) :
    (Int31 m).map Prod.fst = some (((w >>> 1 : Nat) : Int)) ∧
    (0 : Int) ≤ ((w >>> 1 : Nat) : Int) ∧ ((w >>> 1 : Nat) : Int) ≤ 0x7fffffff := by
  have hi := i32_shr_one w hw
  refine ⟨?_, Int.natCast_nonneg _, ?_⟩
  · rw [Int31_eq, h]
    simp only [Option.map]
    rw [hi.1]
  · have := hi.2
    omega

theorem Int32_5489 :
    Int32 (NewMersenne32 5489) = some (1228475205, stateAfter 5489 1) := by
  have h := Int32_stateAfter 5489 0 (by decide)
  rw [stateAfter_zero, NewMersenne32_getD 5489 (0 + 1) (by decide), u32OfInt_5489] at h
  have hw : temper32 (seedWord 5489 (0 + 1)) = 1228475205 := by decide
  rw [hw] at h
  exact h

/-- Instance of C15 (amended) at `NewMersenne32(5489)`. -/
theorem C15_int31_shifts_witness :
    Int32 (NewMersenne32 5489) = some (1228475205, stateAfter 5489 1) ∧
    1228475205 < 4294967296 ∧
    ((Int31 (NewMersenne32 5489)).map Prod.fst = some (((1228475205 >>> 1 : Nat) : Int)) ∧
    (0 : Int) ≤ ((1228475205 >>> 1 : Nat) : Int) ∧
    ((1228475205 >>> 1 : Nat) : Int) ≤ 0x7fffffff) :=
  ⟨Int32_5489, by decide,
    C15_int31_shifts (NewMersenne32 5489) (stateAfter 5489 1) 1228475205 Int32_5489 (by decide)⟩

/-- C20: whenever `Int32` succeeds from a state, returns `w` and leaves `m1`,
each of `Int31`, `Real1`, `Real2`, `Real3` from the same state succeeds, leaves
exactly `m1` and returns a function of `w`: `int32(w >> 1)`, which lies in
`[0, 0x7fffffff]`; the `float64` product of `w` and of the `float64` of the
constant `1.0 / 4294967295.0`; `w * 2^-32`; and `(w + 0.5) * 2^-32`. -/
theorem C20_duplicated_extraction (m m1 : MT19937) (w : Nat) (h : Int32 m = some (w, m1))
    (hw : w < 4294967296) :
    Int31 m = some (((w >>> 1 : Nat) : Int), m1) ∧
    (0 : Int) ≤ ((w >>> 1 : Nat) : Int) ∧ ((w >>> 1 : Nat) : Int) ≤ 0x7fffffff ∧
    Real1 m = some (f64 ((w : ℚ) * f64 (1 / 4294967295)), m1) ∧
    Real2 m = some ((w : ℚ) * (1 / 2 ^ 32), m1) ∧
    Real3 m = some (((w : ℚ) + 1 / 2) * (1 / 2 ^ 32), m1) := by
  have hi := i32_shr_one w hw
  refine ⟨?_, Int.natCast_nonneg _, ?_, ?_, ?_, ?_⟩
  · rw [Int31_eq, h]
    simp only [Option.map]
    rw [hi.1]
  · have := hi.2
    omega
  · rw [Real1_eq, h]
    simp only [Option.map]
    rw [real1Val, f64_natCast w (by omega)]
  · rw [Real2_eq, h]
    simp only [Option.map]
    rw [real2Val32_eq w hw]
    norm_num
    ring
  · rw [Real3_eq, h]
    simp only [Option.map]
    rw [real3Val32_eq w hw]
    norm_num
    ring

/-- Instance of C20 at `NewMersenne32(5489)`, with the value of `Real1` there. -/
theorem C20_duplicated_extraction_witness :
    Int32 (NewMersenne32 5489) = some (1228475205, stateAfter 5489 1) ∧
    1228475205 < 4294967296 ∧
    (Int31 (NewMersenne32 5489) = some (((1228475205 >>> 1 : Nat) : Int), stateAfter 5489 1) ∧
    (0 : Int) ≤ ((1228475205 >>> 1 : Nat) : Int) ∧
    ((1228475205 >>> 1 : Nat) : Int) ≤ 0x7fffffff ∧
    Real1 (NewMersenne32 5489)
      = some (f64 (((1228475205 : Nat) : ℚ) * f64 (1 / 4294967295)), stateAfter 5489 1) ∧
    Real2 (NewMersenne32 5489)
      = some (((1228475205 : Nat) : ℚ) * (1 / 2 ^ 32), stateAfter 5489 1) ∧
    Real3 (NewMersenne32 5489)
      = some ((((1228475205 : Nat) : ℚ) + 1 / 2) * (1 / 2 ^ 32), stateAfter 5489 1)) ∧
    f64 (((1228475205 : Nat) : ℚ) * f64 (1 / 4294967295)) = 5152598467432003 / 2 ^ 54 :=
  ⟨Int32_5489, by decide,
    C20_duplicated_extraction (NewMersenne32 5489) (stateAfter 5489 1) 1228475205 Int32_5489
      (by decide),
    by
      have h := real1Val_1228475205
      rw [real1Val, f64_natCast 1228475205 (by norm_num)] at h
      exact h⟩

end Twister32

/-! ## The derived reals -/

/-- The range laws of the reals of the 32-bit engine. -/
theorem Twister32.real_ranges32 (w : Nat) (h : w < 4294967296) :
    0 ≤ Twister32.real1Val w ∧ Twister32.real1Val w ≤ 1 ∧
    |Twister32.real1Val w - (w : ℚ) / (2 ^ 32 - 1)| ≤ 1 / 2 ^ 52 ∧
    Twister32.real2Val w = (w : ℚ) / 2 ^ 32 ∧
    0 ≤ Twister32.real2Val w ∧ Twister32.real2Val w < 1 ∧
    Twister32.real3Val w = ((w : ℚ) + 1 / 2) / 2 ^ 32 ∧
    0 < Twister32.real3Val w ∧ Twister32.real3Val w < 1 := by
  have h0 : (0 : ℚ) ≤ (w : ℚ) := Nat.cast_nonneg w
  have h1 : (w : ℚ) ≤ 4294967295 := by
    have : w ≤ 4294967295 := by omega
    exact_mod_cast this
  obtain ⟨a, b, c⟩ := Twister32.real1Val32_bounds w h
  rw [Twister32.real2Val32_eq w h, Twister32.real3Val32_eq w h]
  refine ⟨a, b, c, rfl, by positivity, ?_, rfl, by positivity, ?_⟩
  · rw [div_lt_one (by norm_num)]
    linarith
  · rw [div_lt_one (by norm_num)]
    linarith

/-- The range laws of the reals of the 64-bit engine. -/
theorem Twister64.real_ranges64 (w : Nat) (h : w < 18446744073709551616) :
    0 ≤ Twister64.real1Val w ∧ Twister64.real1Val w ≤ 1 ∧
    |Twister64.real1Val w - ((w >>> 11 : Nat) : ℚ) / (2 ^ 53 - 1)| ≤ 1 / 2 ^ 52 ∧
    Twister64.real2Val w = ((w >>> 11 : Nat) : ℚ) / 2 ^ 53 ∧
    0 ≤ Twister64.real2Val w ∧ Twister64.real2Val w < 1 ∧
    Twister64.real3Val w = (((w >>> 12 : Nat) : ℚ) + 1 / 2) / 2 ^ 52 ∧
    0 < Twister64.real3Val w ∧ Twister64.real3Val w < 1 := by
  have a0 : (0 : ℚ) ≤ ((w >>> 11 : Nat) : ℚ) := Nat.cast_nonneg _
  have a1 : ((w >>> 11 : Nat) : ℚ) ≤ 9007199254740991 := by
    have : w >>> 11 ≤ 9007199254740991 := by
      have := Twister64.shr11_lt_pow w h
      omega
    exact_mod_cast this
  have b0 : (0 : ℚ) ≤ ((w >>> 12 : Nat) : ℚ) := Nat.cast_nonneg _
  have b1 : ((w >>> 12 : Nat) : ℚ) ≤ 4503599627370495 := by
    have : w >>> 12 ≤ 4503599627370495 := by
      have := Twister64.shr12_lt_pow w h
      omega
    exact_mod_cast this
  obtain ⟨a, b, c⟩ := Twister64.real1Val64_bounds w h
  rw [Twister64.real2Val64_eq w h, Twister64.real3Val64_eq w h]
  generalize ((w >>> 11 : Nat) : ℚ) = x at a0 a1 c ⊢
  generalize ((w >>> 12 : Nat) : ℚ) = y at b0 b1 ⊢
  refine ⟨a, b, c, rfl, by positivity, ?_, rfl, by positivity, ?_⟩
  · rw [div_lt_one (by norm_num)]
    linarith
  · rw [div_lt_one (by norm_num)]
    linarith

/-- C16: for every word `w32` of 32 bits and every word `w64` of 64 bits, with
the values that the `float64` code computes. `Real1`, the rounded product of the
word (shifted right by 11 on the 64-bit engine) and of the `float64` of the
constant, lies in `[0, 1]`, is 0 at the zero word and 1 at the all-ones word, and
is within `2^-52` of the quotient `w32 / (2^32 - 1)`, resp.
`(w64 >> 11) / (2^53 - 1)`, which is its value when the arithmetic is read as
exact rational arithmetic. `Real2` is exactly `w32 / 2^32`, resp.
`(w64 >> 11) / 2^53`, and lies in `[0, 1)`. `Real3` is exactly
`(w32 + 1/2) / 2^32`, resp. `((w64 >> 12) + 1/2) / 2^52`, and lies strictly in
`(0, 1)`. These are the values that the methods return for the extracted word. -/
theorem C16_real_ranges (w32 w64 : Nat) (h32 : w32 < 2 ^ 32) (h64 : w64 < 2 ^ 64) :
    (0 ≤ Twister32.real1Val w32 ∧ Twister32.real1Val w32 ≤ 1 ∧
      |Twister32.real1Val w32 - (w32 : ℚ) / (2 ^ 32 - 1)| ≤ 1 / 2 ^ 52 ∧
      Twister32.real2Val w32 = (w32 : ℚ) / 2 ^ 32 ∧
      0 ≤ Twister32.real2Val w32 ∧ Twister32.real2Val w32 < 1 ∧
      Twister32.real3Val w32 = ((w32 : ℚ) + 1 / 2) / 2 ^ 32 ∧
      0 < Twister32.real3Val w32 ∧ Twister32.real3Val w32 < 1) ∧
    (Twister32.real1Val 0 = 0 ∧ Twister32.real1Val (2 ^ 32 - 1) = 1) ∧
    (0 ≤ Twister64.real1Val w64 ∧ Twister64.real1Val w64 ≤ 1 ∧
      |Twister64.real1Val w64 - ((w64 >>> 11 : Nat) : ℚ) / (2 ^ 53 - 1)| ≤ 1 / 2 ^ 52 ∧
      Twister64.real2Val w64 = ((w64 >>> 11 : Nat) : ℚ) / 2 ^ 53 ∧
      0 ≤ Twister64.real2Val w64 ∧ Twister64.real2Val w64 < 1 ∧
      Twister64.real3Val w64 = (((w64 >>> 12 : Nat) : ℚ) + 1 / 2) / 2 ^ 52 ∧
      0 < Twister64.real3Val w64 ∧ Twister64.real3Val w64 < 1) ∧
    (Twister64.real1Val 0 = 0 ∧ Twister64.real1Val (2 ^ 64 - 1) = 1) ∧
    (∀ m, Twister32.Real1 m = (Twister32.Int32 m).map (fun r => (Twister32.real1Val r.1, r.2))) ∧
    (∀ m, Twister32.Real2 m = (Twister32.Int32 m).map (fun r => (Twister32.real2Val r.1, r.2))) ∧
    (∀ m, Twister32.Real3 m = (Twister32.Int32 m).map (fun r => (Twister32.real3Val r.1, r.2))) ∧
    (∀ m, Twister64.Real1 m = (Twister64.real1Val (Twister64.Int64 m).1, (Twister64.Int64 m).2)) ∧
    (∀ m, Twister64.Real2 m = (Twister64.real2Val (Twister64.Int64 m).1, (Twister64.Int64 m).2)) ∧
    (∀ m, Twister64.Real3 m
      = (Twister64.real3Val (Twister64.Int64 m).1, (Twister64.Int64 m).2)) := by
  have e32 : (2 ^ 32 - 1 : Nat) = 4294967295 := by norm_num
  have e64 : (2 ^ 64 - 1 : Nat) = 18446744073709551615 := by norm_num
  rw [e32, e64]
  exact ⟨Twister32.real_ranges32 w32 (by norm_num at h32; exact h32),
    ⟨Twister32.real1Val32_zero, Twister32.real1Val32_ones⟩,
    Twister64.real_ranges64 w64 (by norm_num at h64; exact h64),
    ⟨Twister64.real1Val64_zero, Twister64.real1Val64_ones⟩,
    Twister32.Real1_eq, Twister32.Real2_eq, Twister32.Real3_eq,
    fun _ => rfl, fun _ => rfl, fun _ => rfl⟩

/-- Instance of C16 at the all-ones words. -/
theorem C16_real_ranges_witness :
    (4294967295 : Nat) < 2 ^ 32 ∧ (18446744073709551615 : Nat) < 2 ^ 64 ∧
    ((0 ≤ Twister32.real1Val (4294967295 : Nat) ∧ Twister32.real1Val (4294967295 : Nat) ≤ 1 ∧
      |Twister32.real1Val (4294967295 : Nat) - ((4294967295 : Nat) : ℚ) / (2 ^ 32 - 1)| ≤ 1 / 2 ^
          52 ∧
      Twister32.real2Val (4294967295 : Nat) = ((4294967295 : Nat) : ℚ) / 2 ^ 32 ∧
      0 ≤ Twister32.real2Val (4294967295 : Nat) ∧ Twister32.real2Val (4294967295 : Nat) < 1 ∧
      Twister32.real3Val (4294967295 : Nat) = (((4294967295 : Nat) : ℚ) + 1 / 2) / 2 ^ 32 ∧
      0 < Twister32.real3Val (4294967295 : Nat) ∧ Twister32.real3Val (4294967295 : Nat) < 1) ∧
    (Twister32.real1Val 0 = 0 ∧ Twister32.real1Val (2 ^ 32 - 1) = 1) ∧
    (0 ≤ Twister64.real1Val (18446744073709551615 : Nat) ∧ Twister64.real1Val (18446744073709551615
        : Nat) ≤ 1 ∧
      |Twister64.real1Val (18446744073709551615 : Nat) - (((18446744073709551615 : Nat) >>> 11 :
          Nat) : ℚ) / (2 ^ 53 - 1)| ≤ 1 / 2 ^ 52 ∧
      Twister64.real2Val (18446744073709551615 : Nat) = (((18446744073709551615 : Nat) >>> 11 :
          Nat) : ℚ) / 2 ^ 53 ∧
      0 ≤ Twister64.real2Val (18446744073709551615 : Nat) ∧ Twister64.real2Val
          (18446744073709551615 : Nat) < 1 ∧
      Twister64.real3Val (18446744073709551615 : Nat) = ((((18446744073709551615 : Nat) >>> 12 :
          Nat) : ℚ) + 1 / 2) / 2 ^ 52 ∧
      0 < Twister64.real3Val (18446744073709551615 : Nat) ∧ Twister64.real3Val
          (18446744073709551615 : Nat) < 1) ∧
    (Twister64.real1Val 0 = 0 ∧ Twister64.real1Val (2 ^ 64 - 1) = 1) ∧
    (∀ m, Twister32.Real1 m = (Twister32.Int32 m).map (fun r => (Twister32.real1Val r.1, r.2))) ∧
    (∀ m, Twister32.Real2 m = (Twister32.Int32 m).map (fun r => (Twister32.real2Val r.1, r.2))) ∧
    (∀ m, Twister32.Real3 m = (Twister32.Int32 m).map (fun r => (Twister32.real3Val r.1, r.2))) ∧
    (∀ m, Twister64.Real1 m = (Twister64.real1Val (Twister64.Int64 m).1, (Twister64.Int64 m).2)) ∧
    (∀ m, Twister64.Real2 m = (Twister64.real2Val (Twister64.Int64 m).1, (Twister64.Int64 m).2)) ∧
    (∀ m, Twister64.Real3 m
      = (Twister64.real3Val (Twister64.Int64 m).1, (Twister64.Int64 m).2))) :=
  ⟨by norm_num, by norm_num,
    C16_real_ranges 4294967295 18446744073709551615 (by norm_num) (by norm_num)⟩

/-! ## Array seeding of the 64-bit engine -/

theorem xor_u64 (a p : Nat) : (a ^^^ u64 p) % 2 ^ 64 = (a ^^^ p) % 2 ^ 64 := by
  apply Nat.eq_of_testBit_eq
  intro i
  unfold u64
  simp only [Nat.testBit_mod_two_pow, Nat.testBit_xor]
  by_cases h : i < 64 <;> simp [h]

/-- Two step functions that agree on the states satisfying an invariant kept by
the first agree after any number of steps from such a state. -/
theorem iterate_congr_inv {σ : Type} (Inv : σ → Prop) (f g : σ → σ)
    (h : ∀ s, Inv s → f s = g s ∧ Inv (f s)) (n : Nat) (s : σ) (hs : Inv s) :
    f^[n] s = g^[n] s ∧ Inv (f^[n] s) := by
  induction n with
  | zero => exact ⟨rfl, hs⟩
  | succ n ih =>
    rw [Function.iterate_succ_apply', Function.iterate_succ_apply', ← ih.1]
    exact h _ ih.2

namespace Twister64

theorem u64_small (x : Nat) (h : x < 18446744073709551616) : u64 x = x := by
  unfold u64
  exact Nat.mod_eq_of_lt (by norm_num; exact h)

theorem u64_one_shl_63 : u64 (1 <<< 63) = 2 ^ 63 := by
  unfold u64
  rw [Nat.one_shiftLeft]
  norm_num

theorem keyStep1_length64 (key : List Nat) (s : KeyLoop) :
    (keyStep1 key s).mt.length = s.mt.length := by
  unfold keyStep1
  simp only
  split <;> simp

theorem keyStep2_length64 (s : KeyLoop) : (keyStep2 s).mt.length = s.mt.length := by
  unfold keyStep2
  simp only
  split <;> simp

theorem keyStep1_iterate_length64 (key : List Nat) (n : Nat) (s : KeyLoop) :
    ((keyStep1 key)^[n] s).mt.length = s.mt.length := by
  induction n with
  | zero => rfl
  | succ n ih => rw [Function.iterate_succ_apply', keyStep1_length64, ih]

theorem keyStep2_iterate_length64 (n : Nat) (s : KeyLoop) :
    (keyStep2^[n] s).mt.length = s.mt.length := by
  induction n with
  | zero => rfl
  | succ n ih => rw [Function.iterate_succ_apply', keyStep2_length64, ih]

/-- After `SeedArray`: the buffer keeps its length, word 0 is `2^63` and `mti`
is as `Seed` left it. -/
theorem SeedArray64_word0 (m : MT19937) (key : List Nat) (hm : m.mt.length = NN) :
    (SeedArray m key).mt.length = NN ∧ (SeedArray m key).mt.getD 0 0 = 2 ^ 63 ∧
    (SeedArray m key).mti = NN := by
  have hNN : NN = 312 := rfl
  have hl := Seed_mt_length m 19650218 hm
  have hi := Seed_mti m 19650218
  unfold SeedArray
  generalize Seed m 19650218 = sd at hl hi
  obtain ⟨b0, mti0⟩ := sd
  simp only at hl hi ⊢
  have hlen : (keyStep2^[NN - 1] ((keyStep1 key)^[if NN ≤ key.length then key.length else NN]
      ⟨b0, 1, 0⟩)).mt.length = NN := by
    rw [keyStep2_iterate_length64, keyStep1_iterate_length64]
    exact hl
  generalize (keyStep2^[NN - 1] ((keyStep1 key)^[if NN ≤ key.length then key.length else NN]
      ⟨b0, 1, 0⟩)).mt = B at hlen ⊢
  constructor
  · rw [List.length_set]
    exact hlen
  constructor
  · rw [getD_set_self _ _ _ (by rw [hlen, hNN]; omega)]
    exact u64_one_shl_63
  · exact hi

/-- Under the invariant a step of the first loop of `SeedArray` is a step of the
forward pass of the definition. -/
theorem keyStep1_spec (key : List Nat) (hk : key.length = NN) (s : KeyLoop)
    (hs : KeyInv key s) : keyStep1 key s = specForward key s ∧ KeyInv key (keyStep1 key s) := by
  have hNN : NN = 312 := rfl
  obtain ⟨mt, i, j⟩ := s
  obtain ⟨hlen, hi1, hi2, hj⟩ := hs
  simp only at hlen hi1 hi2 hj
  have ei : u64 (i + 1) = i + 1 := u64_small _ (by omega)
  have ej : u64 (j + 1) = j + 1 := u64_small _ (by omega)
  have ek : u64 key.length = key.length := u64_small _ (by omega)
  have ev : u64 ((mt.getD i 0 ^^^
        u64 ((mt.getD (i - 1) 0 ^^^ (mt.getD (i - 1) 0 >>> 62)) * 3935559000370003845))
      + key.getD j 0 + j)
      = ((mt.getD i 0 ^^^
        ((mt.getD (i - 1) 0 ^^^ (mt.getD (i - 1) 0 >>> 62)) * 3935559000370003845))
      + key.getD j 0 + j) % 2 ^ 64 := by
    have hx := xor_u64 (mt.getD i 0)
      ((mt.getD (i - 1) 0 ^^^ (mt.getD (i - 1) 0 >>> 62)) * 3935559000370003845)
    unfold u64 at hx ⊢
    generalize mt.getD i 0 ^^^ ((mt.getD (i - 1) 0 ^^^ (mt.getD (i - 1) 0 >>> 62))
      * 3935559000370003845) % 2 ^ 64 = X at hx ⊢
    generalize mt.getD i 0 ^^^ ((mt.getD (i - 1) 0 ^^^ (mt.getD (i - 1) 0 >>> 62))
      * 3935559000370003845) = Y at hx ⊢
    omega
  have e : keyStep1 key ⟨mt, i, j⟩ = specForward key ⟨mt, i, j⟩ := by
    unfold keyStep1 specForward
    simp only [ei, ej, ek, ev]
    generalize ((mt.getD i 0 ^^^
        ((mt.getD (i - 1) 0 ^^^ (mt.getD (i - 1) 0 >>> 62)) * 3935559000370003845))
      + key.getD j 0 + j) % 2 ^ 64 = v
    have c1 : (NN ≤ i + 1) ↔ (i + 1 = 312) := by omega
    have c2 : (key.length ≤ j + 1) ↔ (j + 1 = key.length) := by omega
    have e311 : NN - 1 = 311 := rfl
    simp only [c1, c2, e311]
    by_cases h1 : i + 1 = 312
    · simp only [h1, if_true]
    · simp only [h1, if_false]
  refine ⟨e, ?_⟩
  rw [e]
  unfold KeyInv specForward
  simp only
  refine ⟨?_, ?_, ?_, ?_⟩
  · split <;> simpa using hlen
  · split <;> omega
  · split <;> omega
  · split <;> omega

/-- Under the invariant a step of the second loop of `SeedArray` is a step of the
reverse pass of the definition. -/
theorem keyStep2_spec (key : List Nat) (s : KeyLoop) (hs : KeyInv key s) :
    keyStep2 s = specReverse s ∧ KeyInv key (keyStep2 s) := by
  have hNN : NN = 312 := rfl
  obtain ⟨mt, i, j⟩ := s
  obtain ⟨hlen, hi1, hi2, hj⟩ := hs
  simp only at hlen hi1 hi2 hj
  have ei : u64 (i + 1) = i + 1 := u64_small _ (by omega)
  have ev : u64 ((mt.getD i 0 ^^^
        u64 ((mt.getD (i - 1) 0 ^^^ (mt.getD (i - 1) 0 >>> 62)) * 2862933555777941757))
      + (2 ^ 64 - i))
      = ((((mt.getD i 0 ^^^
        ((mt.getD (i - 1) 0 ^^^ (mt.getD (i - 1) 0 >>> 62)) * 2862933555777941757)
          : Nat) : Int) - (i : Int)) % 2 ^ 64).toNat := by
    have hx := xor_u64 (mt.getD i 0)
      ((mt.getD (i - 1) 0 ^^^ (mt.getD (i - 1) 0 >>> 62)) * 2862933555777941757)
    unfold u64 at hx ⊢
    generalize mt.getD i 0 ^^^ ((mt.getD (i - 1) 0 ^^^ (mt.getD (i - 1) 0 >>> 62))
      * 2862933555777941757) % 2 ^ 64 = X at hx ⊢
    generalize mt.getD i 0 ^^^ ((mt.getD (i - 1) 0 ^^^ (mt.getD (i - 1) 0 >>> 62))
      * 2862933555777941757) = Y at hx ⊢
    omega
  have e : keyStep2 ⟨mt, i, j⟩ = specReverse ⟨mt, i, j⟩ := by
    unfold keyStep2 specReverse
    simp only [ei, ev]
    generalize ((((mt.getD i 0 ^^^
        ((mt.getD (i - 1) 0 ^^^ (mt.getD (i - 1) 0 >>> 62)) * 2862933555777941757)
          : Nat) : Int) - (i : Int)) % 2 ^ 64).toNat = v
    have c1 : (NN ≤ i + 1) ↔ (i + 1 = 312) := by omega
    have e311 : NN - 1 = 311 := rfl
    simp only [c1, e311]
    by_cases h1 : i + 1 = 312
    · simp only [h1, if_true]
    · simp only [h1, if_false]
  refine ⟨e, ?_⟩
  rw [e]
  unfold KeyInv specReverse
  simp only
  refine ⟨?_, ?_, ?_, hj⟩
  · split <;> simpa using hlen
  · split <;> omega
  · split <;> omega

/-- C12: for every 312-word key and every prior state, `SeedArray` is array
seeding by its definition: `Seed(19650218)`, the forward pass of
`max(312, len(key)) = 312` steps from `i = 1`, `j = 0`, the reverse pass of 311
steps, each with the stated formula modulo `2^64` and wrap rule, then
`buffer[0] := 2^63`; the buffer keeps its 312 words and `mti` is left at 312. -/
theorem C12_seedArray64_definition (m : MT19937) (key : List Nat) (hm : m.mt.length = NN)
    (hk : key.length = NN) :
    SeedArray m key = specSeedArray m key ∧ max 312 key.length = 312 ∧
    (SeedArray m key).mt.length = 312 ∧ (SeedArray m key).mti = 312 := by
  have hNN : NN = 312 := rfl
  have hw := SeedArray64_word0 m key hm
  refine ⟨?_, by omega, hw.1, hw.2.2⟩
  have hl := Seed_mt_length m 19650218 hm
  have hi := Seed_mti m 19650218
  unfold SeedArray specSeedArray
  generalize Seed m 19650218 = sd at hl hi
  obtain ⟨b0, mti0⟩ := sd
  simp only at hl hi ⊢
  have e1 : (if NN ≤ key.length then key.length else NN) = 312 := by
    rw [if_pos (by omega)]
    omega
  have e2 : max 312 key.length = 312 := by omega
  have e3 : NN - 1 = 311 := rfl
  rw [e1, e2, e3]
  have inv0 : KeyInv key ⟨b0, 1, 0⟩ :=
    ⟨hl, Nat.le_refl 1, by show 1 < NN; omega, by show 0 < key.length; omega⟩
  have p1 := iterate_congr_inv (KeyInv key) (keyStep1 key) (specForward key)
    (keyStep1_spec key hk) 312 ⟨b0, 1, 0⟩ inv0
  have p2 := iterate_congr_inv (KeyInv key) keyStep2 specReverse
    (keyStep2_spec key) 311 _ p1.2
  rw [p2.1, p1.1, hi]
  rw [u64_one_shl_63, hNN]

/-- Instance of C12 at the unseeded generator and the all-zero key. -/
theorem C12_seedArray64_definition_witness :
    New.mt.length = NN ∧ (List.replicate NN 0).length = NN ∧
    (SeedArray New (List.replicate NN 0) = specSeedArray New (List.replicate NN 0) ∧
    max 312 (List.replicate NN 0).length = 312 ∧
    (SeedArray New (List.replicate NN 0)).mt.length = 312 ∧
    (SeedArray New (List.replicate NN 0)).mti = 312) :=
  ⟨New_mt_length, List.length_replicate _ _,
    C12_seedArray64_definition New (List.replicate NN 0) New_mt_length
      (List.length_replicate _ _)⟩

end Twister64

/-! ## Array seeding leaves a non-zero buffer -/

namespace Twister32

theorem keyStep1_length32 (key : List Nat) (s : KeyLoop) :
    (keyStep1 key s).state.length = s.state.length := by
  unfold keyStep1
  simp only
  split <;> simp

theorem keyStep2_length32 (s : KeyLoop) : (keyStep2 s).state.length = s.state.length := by
  unfold keyStep2
  simp only
  split <;> simp

theorem keyStep1_iterate_length32 (key : List Nat) (n : Nat) (s : KeyLoop) :
    ((keyStep1 key)^[n] s).state.length = s.state.length := by
  induction n with
  | zero => rfl
  | succ n ih => rw [Function.iterate_succ_apply', keyStep1_length32, ih]

theorem keyStep2_iterate_length32 (n : Nat) (s : KeyLoop) :
    (keyStep2^[n] s).state.length = s.state.length := by
  induction n with
  | zero => rfl
  | succ n ih => rw [Function.iterate_succ_apply', keyStep2_length32, ih]

/-- After `SeedArray` with any key: the buffer keeps its length and word 0 is
`0x80000000`. -/
theorem SeedArray32_word0 (m : MT19937) (key : List Nat) (hm : m.state.length = N) :
    (SeedArray m key).state.length = N ∧ (SeedArray m key).state.getD 0 0 = 0x80000000 := by
  have hN : N = 624 := rfl
  have hl := Seed_state_length m 19650218 hm
  have hs := Seed_eq m 19650218
  rw [← Seed_state] at hs
  unfold SeedArray
  generalize (Seed m 19650218).state = b0 at hl hs
  rw [hs]
  simp only
  have hlen : (keyStep2^[N - 1] ((keyStep1 key)^[if N ≤ key.length then key.length else N]
      ⟨b0, 1, 0⟩)).state.length = N := by
    rw [keyStep2_iterate_length32, keyStep1_iterate_length32]
    exact hl
  generalize (keyStep2^[N - 1] ((keyStep1 key)^[if N ≤ key.length then key.length else N]
      ⟨b0, 1, 0⟩)).state = B at hlen ⊢
  constructor
  · rw [List.length_set]
    exact hlen
  · exact getD_set_self _ _ _ (by rw [hlen, hN]; omega)

end Twister32

/-- C13: on both engines, for every key and every prior state, after `SeedArray`
word 0 of the buffer is exactly `0x80000000` (32-bit), resp. `2^63` (64-bit), so
its most significant bit is 1 and the buffer is not all zero. -/
theorem C13_seedArray_not_all_zero (g64 : Twister64.MT19937) (g32 : Twister32.MT19937)
    (key64 key32 : List Nat) (h64 : g64.mt.length = Twister64.NN)
    (h32 : g32.state.length = Twister32.N) :
    ((Twister32.SeedArray g32 key32).state.getD 0 0 = 0x80000000 ∧
      (Twister32.SeedArray g32 key32).state.getD 0 0 >>> 31 = 1 ∧
      (Twister32.SeedArray g32 key32).state ≠ List.replicate Twister32.N 0) ∧
    ((Twister64.SeedArray g64 key64).mt.getD 0 0 = 2 ^ 63 ∧
      (Twister64.SeedArray g64 key64).mt.getD 0 0 >>> 63 = 1 ∧
      (Twister64.SeedArray g64 key64).mt ≠ List.replicate Twister64.NN 0) := by
  have a := (Twister32.SeedArray32_word0 g32 key32 h32).2
  have b := (Twister64.SeedArray64_word0 g64 key64 h64).2.1
  refine ⟨⟨a, ?_, ?_⟩, ⟨b, ?_, ?_⟩⟩
  · rw [a]
    decide
  · intro h
    rw [h, getD_replicate_zero] at a
    exact absurd a (by decide)
  · rw [b]
    rw [Nat.shiftRight_eq_div_pow]
    norm_num
  · intro h
    rw [h, getD_replicate_zero] at b
    exact absurd b (by norm_num)

/-- Instance of C13 at the unseeded generators and the all-zero keys. -/
theorem C13_seedArray_not_all_zero_witness :
    Twister64.New.mt.length = Twister64.NN ∧ Twister32.New32.state.length = Twister32.N ∧
    (((Twister32.SeedArray Twister32.New32 (List.replicate 624 0)).state.getD 0 0 = 0x80000000 ∧
      (Twister32.SeedArray Twister32.New32 (List.replicate 624 0)).state.getD 0 0 >>> 31 = 1 ∧
      (Twister32.SeedArray Twister32.New32 (List.replicate 624 0)).state
        ≠ List.replicate Twister32.N 0) ∧
    ((Twister64.SeedArray Twister64.New (List.replicate 312 0)).mt.getD 0 0 = 2 ^ 63 ∧
      (Twister64.SeedArray Twister64.New (List.replicate 312 0)).mt.getD 0 0 >>> 63 = 1 ∧
      (Twister64.SeedArray Twister64.New (List.replicate 312 0)).mt
        ≠ List.replicate Twister64.NN 0)) :=
  ⟨Twister64.New_mt_length, Twister32.New32_state_length,
    C13_seedArray_not_all_zero Twister64.New Twister32.New32 (List.replicate 312 0)
      (List.replicate 624 0) Twister64.New_mt_length Twister32.New32_state_length⟩

/-! ## Tempering -/

theorem shiftRight_le_self (a k : Nat) : a >>> k ≤ a := by
  rw [Nat.shiftRight_eq_div_pow]
  exact Nat.div_le_self _ _

theorem eq_zero_of_le_shiftRight (d k : Nat) (hk : 0 < k) (h : d ≤ d >>> k) : d = 0 := by
  by_contra hd
  have hpos : 0 < d := Nat.pos_of_ne_zero hd
  rw [Nat.shiftRight_eq_div_pow] at h
  have h2 : d / 2 ^ k < d := Nat.div_lt_self hpos (Nat.one_lt_two_pow (Nat.pos_iff_ne_zero.mp hk))
  omega

/-- The step `y ^= (y >> k) & c` of a tempering is injective. -/
theorem xorShrMask_inj (k c : Nat) (hk : 0 < k) (x y : Nat)
    (h : x ^^^ ((x >>> k) &&& c) = y ^^^ ((y >>> k) &&& c)) : x = y := by
  have hd : x ^^^ y = ((x ^^^ y) >>> k) &&& c := by
    apply Nat.eq_of_testBit_eq
    intro i
    have hi := congrArg (fun z => Nat.testBit z i) h
    simp only [Nat.testBit_xor, Nat.testBit_and, Nat.testBit_shiftRight] at hi ⊢
    revert hi
    generalize x.testBit i = a
    generalize y.testBit i = b
    generalize x.testBit (k + i) = a1
    generalize y.testBit (k + i) = b1
    generalize c.testBit i = m
    revert a b a1 b1 m
    decide
  have hle : x ^^^ y ≤ (x ^^^ y) >>> k := by
    have := @Nat.and_le_left ((x ^^^ y) >>> k) c
    omega
  exact Nat.xor_eq_zero.mp (eq_zero_of_le_shiftRight _ k hk hle)

/-- The step `y ^= y >> k` of a tempering is injective. -/
theorem xorShr_inj (k : Nat) (hk : 0 < k) (x y : Nat)
    (h : x ^^^ (x >>> k) = y ^^^ (y >>> k)) : x = y := by
  have hd : x ^^^ y = (x ^^^ y) >>> k := by
    apply Nat.eq_of_testBit_eq
    intro i
    have hi := congrArg (fun z => Nat.testBit z i) h
    simp only [Nat.testBit_xor, Nat.testBit_shiftRight] at hi ⊢
    revert hi
    generalize x.testBit i = a
    generalize y.testBit i = b
    generalize x.testBit (k + i) = a1
    generalize y.testBit (k + i) = b1
    revert a b a1 b1
    decide
  exact Nat.xor_eq_zero.mp (eq_zero_of_le_shiftRight _ k hk (Nat.le_of_eq hd))

/-- The step `y ^= (y << k) & c` of a tempering, with the shift on `w`-bit words,
is injective. -/
theorem xorShlMask_inj (w k c : Nat) (hk : 0 < k) (x y : Nat)
    (h : x ^^^ ((x <<< k) % 2 ^ w &&& c) = y ^^^ ((y <<< k) % 2 ^ w &&& c)) : x = y := by
  apply Nat.eq_of_testBit_eq
  intro i
  induction i using Nat.strong_induction_on with
  | _ i ih =>
    have hi := congrArg (fun z => Nat.testBit z i) h
    simp only [Nat.testBit_xor, Nat.testBit_and, Nat.testBit_mod_two_pow,
      Nat.testBit_shiftLeft] at hi
    by_cases hik : k ≤ i
    · have e := ih (i - k) (by omega)
      rw [e] at hi
      revert hi
      generalize x.testBit i = a
      generalize y.testBit i = b
      generalize (decide (i < w) && (decide (i ≥ k) && y.testBit (i - k)) && c.testBit i) = m
      revert a b m
      decide
    · have e : decide (i ≥ k) = false := by simpa using hik
      rw [e] at hi
      simpa using hi

namespace Twister32

theorem temper32_injective (x y : Nat) (h : temper32 x = temper32 y) : x = y := by
  unfold temper32 u32 at h
  simp only at h
  have h3 := xorShr_inj 18 (by decide) _ _ h
  have h2 := xorShlMask_inj 32 15 _ (by decide) _ _ h3
  have h1 := xorShlMask_inj 32 7 _ (by decide) _ _ h2
  exact xorShr_inj 11 (by decide) _ _ h1

theorem temper32_lt (x : Nat) (hx : x < 2 ^ 32) : temper32 x < 2 ^ 32 := by
  unfold temper32
  simp only
  have s : ∀ (a k : Nat), a < 2 ^ 32 → a >>> k < 2 ^ 32 :=
    fun a k ha => Nat.lt_of_le_of_lt (shiftRight_le_self a k) ha
  have m : ∀ (a c : Nat), c < 2 ^ 32 → a &&& c < 2 ^ 32 :=
    fun a c hc => Nat.and_lt_two_pow a hc
  have h1 := Nat.xor_lt_two_pow hx (s x 11 hx)
  have h2 := Nat.xor_lt_two_pow h1 (m (u32 ((x ^^^ x >>> 11) <<< 7)) 0x9d2c5680 (by norm_num))
  have h3 := Nat.xor_lt_two_pow h2 (m (u32 ((x ^^^ x >>> 11 ^^^
    u32 ((x ^^^ x >>> 11) <<< 7) &&& 0x9d2c5680) <<< 15)) 0xefc60000 (by norm_num))
  exact Nat.xor_lt_two_pow h3 (s _ 18 h3)

end Twister32

namespace Twister64

theorem temper64_injective (x y : Nat) (h : temper64 x = temper64 y) : x = y := by
  unfold temper64 u64 at h
  simp only at h
  have h3 := xorShr_inj 43 (by decide) _ _ h
  have h2 := xorShlMask_inj 64 37 _ (by decide) _ _ h3
  have h1 := xorShlMask_inj 64 17 _ (by decide) _ _ h2
  exact xorShrMask_inj 29 _ (by decide) _ _ h1

theorem temper64_lt (x : Nat) (hx : x < 2 ^ 64) : temper64 x < 2 ^ 64 := by
  unfold temper64
  simp only
  have s : ∀ (a k : Nat), a < 2 ^ 64 → a >>> k < 2 ^ 64 :=
    fun a k ha => Nat.lt_of_le_of_lt (shiftRight_le_self a k) ha
  have m : ∀ (a c : Nat), c < 2 ^ 64 → a &&& c < 2 ^ 64 :=
    fun a c hc => Nat.and_lt_two_pow a hc
  have h1 := Nat.xor_lt_two_pow hx (m (x >>> 29) 0x5555555555555555 (by norm_num))
  have h2 := Nat.xor_lt_two_pow h1 (m (u64 ((x ^^^ x >>> 29 &&& 0x5555555555555555) <<< 17))
    0x71D67FFFEDA60000 (by norm_num))
  have h3 := Nat.xor_lt_two_pow h2 (m (u64 ((x ^^^ x >>> 29 &&& 0x5555555555555555 ^^^
    u64 ((x ^^^ x >>> 29 &&& 0x5555555555555555) <<< 17) &&& 0x71D67FFFEDA60000) <<< 37))
    0xFFF7EEE000000000 (by norm_num))
  exact Nat.xor_lt_two_pow h3 (s _ 43 h3)

end Twister64

/-- An injective map of the `n`-bit words into themselves is a bijection of
them. -/
theorem bijOn_words (f : Nat → Nat) (n : Nat) (hmap : ∀ x, x < 2 ^ n → f x < 2 ^ n)
    (hinj : ∀ x y, f x = f y → x = y) :
    Set.BijOn f {x | x < 2 ^ n} {x | x < 2 ^ n} := by
  have hinjOn : Set.InjOn f {x | x < 2 ^ n} := fun x _ y _ h => hinj x y h
  refine ⟨fun x hx => hmap x hx, hinjOn, ?_⟩
  let g : Fin (2 ^ n) → Fin (2 ^ n) := fun a => ⟨f a.1, hmap a.1 a.2⟩
  have gi : Function.Injective g := by
    intro a b hab
    apply Fin.ext
    apply hinj
    exact congrArg Fin.val hab
  have gs : Function.Surjective g := Finite.injective_iff_surjective.mp gi
  intro y hy
  obtain ⟨a, ha⟩ := gs ⟨y, hy⟩
  exact ⟨a.1, a.2, congrArg Fin.val ha⟩

/-- C18: the tempering of the 32-bit engine is injective, and a permutation of
the 32-bit words; the tempering of the 64-bit engine is injective, and a
permutation of the 64-bit words. -/
theorem C18_tempering_bijective :
    Function.Injective Twister32.temper32 ∧
    Set.BijOn Twister32.temper32 {x | x < 2 ^ 32} {x | x < 2 ^ 32} ∧
    Function.Injective Twister64.temper64 ∧
    Set.BijOn Twister64.temper64 {x | x < 2 ^ 64} {x | x < 2 ^ 64} :=
  ⟨fun x y h => Twister32.temper32_injective x y h,
    bijOn_words _ 32 Twister32.temper32_lt Twister32.temper32_injective,
    fun x y h => Twister64.temper64_injective x y h,
    bijOn_words _ 64 Twister64.temper64_lt Twister64.temper64_injective⟩
